import Mathlib

/-!
# git-dblfree: commit-history traversal and per-commit tree scan

A shallow embedding of `src/git-dblfree.cpp`.

* Commit identifiers (`idToString (git_commit_id c)`, a 40 character hex
  string) are natural numbers: the program only inserts them in a set and
  prints them.
* The libgit2 object store is a `Repo`: what `git_revparse_single`,
  `git_commit_parentcount`, `git_commit_parent`, `git_commit_tree` and
  `git_blame_file` answer.  A failed call (`rc != 0`) is `none`.
* libgit2 handles (`git_commit*`, `git_tree*`, `git_blame*`) are numbers
  drawn from a counter, one fresh number for each successful resolution.
* The two globals `knownCommits` and `processedCount` are fields of an
  explicit `State`, together with the handle counter and the trace of
  observable events.
* The recursion of `processCommit` is bounded by a depth budget; a run that
  exceeds it stops with `Res.timeout` and keeps the state reached so far.
* `int` values (parent count, processed counter) are unbounded naturals: a
  commit object cannot list `2^31` parents and a history of `2^31` commits is
  out of reach.
* The call stack is unbounded and no C++ exception (`std::bad_alloc`) is
  thrown.
* A tree is given whole, so the walk never fails to load a subtree.
-/

namespace GitDblfree

/-- Commit identifier. -/
abbrev Oid := Nat

/-- Type of a tree entry, `git_tree_entry_type`. -/
inductive EntryType
  | blob
  | tree
  | commit
  deriving DecidableEq, Repr

/-- A file tree snapshot: the entries of one directory in order; a `dir`
entry carries its subtree, a `link` entry is a submodule (`GIT_OBJ_COMMIT`). -/
inductive Tree
  | nil : Tree
  | blob (name : String) (rest : Tree) : Tree
  | dir (name : String) (sub : Tree) (rest : Tree) : Tree
  | link (name : String) (rest : Tree) : Tree
  deriving DecidableEq, Repr

/-- The object store as seen through the libgit2 calls of the program. -/
structure Repo where
  /-- Answer of `git_revparse_single(&obj, repo, "HEAD")`. -/
  head : Option Oid
  /-- Answer of `git_commit_parentcount`. -/
  parentCount : Oid → Nat
  /-- Answer of `git_commit_parent(&parent, commit, i)`; `none` when `rc != 0`. -/
  parent : Oid → Nat → Option Oid
  /-- Answer of `git_commit_tree(&tree, commit)`; `none` when `rc != 0`. -/
  tree : Oid → Option Tree
  /-- Answer of `git_blame_file` with `newest_commit` set to the given commit,
  for the given path: the hunk count of the blame, `none` when `rc != 0`. -/
  blame : Oid → String → Option Nat

/-- An observable event of a run. -/
inductive Event
  /-- A libgit2 call handed out the handle `h`. -/
  | acquire (h : Nat)
  /-- A libgit2 call read through the handle `h`. -/
  | use (h : Nat)
  /-- The handle `h` was given to `git_commit_free`, `git_tree_free` or `git_blame_free`. -/
  | release (h : Nat)
  /-- The identifier was newly inserted in `knownCommits` (line 105). -/
  | enter (id : Oid)
  /-- Call `git_commit_parent(&parent, commit, i)` on the commit `id` (line 117). -/
  | parentResolve (id : Oid) (i : Nat) (res : Option Oid)
  /-- Call `git_commit_tree(&tree, commit)` on the commit `id` (line 126). -/
  | treeResolve (id : Oid) (ok : Bool)
  /-- Line 132: the scan of commit `id` starts. -/
  | scanBegin (id : Oid)
  /-- Call `git_blame_file` for `path` with `opts.newest_commit = newest` (line 73). -/
  | blameAttempt (path : String) (newest : Oid) (ok : Bool)
  /-- The tree walk of commit `id` returned (line 137). -/
  | scanEnd (id : Oid)
  deriving DecidableEq, Repr

/-- A `git_commit*`: the handle and the identifier `git_commit_id` reads from it. -/
structure Commit where
  handle : Nat
  id : Oid
  deriving DecidableEq, Repr

/-- The globals of the program and the bookkeeping of the model. -/
structure State where
  /-- The global `knownCommits`; kept duplicate free by `processCommit`. -/
  knownCommits : List Oid
  /-- The global `processedCount`. -/
  processedCount : Nat
  /-- Next handle the object store hands out. -/
  nextHandle : Nat
  /-- Events so far, oldest first. -/
  trace : List Event
  deriving DecidableEq, Repr

/-- Outcome of a bounded run: finished, or stopped by the depth budget. -/
inductive Res
  | done (s : State)
  | timeout (s : State)
  deriving DecidableEq, Repr

/-- State carried by an outcome. -/
def Res.state : Res → State
  | .done s => s
  | .timeout s => s

/-- Append events to the trace. -/
def State.emit (s : State) (evs : List Event) : State :=
  { s with trace := s.trace ++ evs }

/-- Hand out a fresh handle and record the events of the call. -/
def State.alloc (s : State) (evs : List Event) : State :=
  { s with nextHandle := s.nextHandle + 1, trace := s.trace ++ evs }

/-- Function `treeMetricsCallback` (lines 57-90) for the entry `(ty, name)` met under
the prefix `root`, with payload `{repo, newestCommit = commit}`.  The second
component is the returned `int`. -/
def treeMetricsCallback (r : Repo) (commit : Commit) (root : String)
    (ty : EntryType) (name : String) (s : State) : State × Int :=
  if ty = EntryType.blob then
    let path := root ++ name
    match r.blame commit.id path with
    | none =>
      (s.emit [Event.use commit.handle, Event.blameAttempt path commit.id false], 0)
    | some hunkCount =>
      let b := s.nextHandle
      (s.alloc ([Event.use commit.handle, Event.blameAttempt path commit.id true,
          Event.acquire b, Event.use b]
          ++ List.replicate hunkCount (Event.use b) ++ [Event.release b]), 0)
  else
    (s, 0)

/-- Modelled from the spec: `git_tree_walk(tree, GIT_TREEWALK_PRE, cb, payload)`
is libgit2 code; section 6 gives it as `walkTree(tree, visitor)`, a pre-order
traversal invoking the visitor per entry with `(pathPrefix, entry)`.  As in
libgit2 a negative answer of the visitor stops the walk, a positive one skips
the entry (and the subtree below it), and a subtree is walked with the prefix
extended by its name and a slash. -/
def treeWalk (cb : String → EntryType → String → State → State × Int) :
    String → Tree → State → State × Int
  | _, Tree.nil, s => (s, 0)
  | root, Tree.blob name rest, s =>
    let (s1, rc) := cb root EntryType.blob name s
    if rc < 0 then (s1, rc) else treeWalk cb root rest s1
  | root, Tree.link name rest, s =>
    let (s1, rc) := cb root EntryType.commit name s
    if rc < 0 then (s1, rc) else treeWalk cb root rest s1
  | root, Tree.dir name sub rest, s =>
    let (s1, rc) := cb root EntryType.tree name s
    if rc < 0 then (s1, rc)
    else if 0 < rc then treeWalk cb root rest s1
    else
      let (s2, rc2) := treeWalk cb (root ++ name ++ "/") sub s1
      if rc2 ≠ 0 then (s2, rc2) else treeWalk cb root rest s2

/-- The parent loop of `processCommit` (lines 114-124) over the remaining
indices, with `visit` the recursive call. -/
def parentLoop (r : Repo) (visit : Commit → State → Res) (commit : Commit) :
    List Nat → State → Res
  | [], s => Res.done s
  | i :: rest, s =>
    match r.parent commit.id i with
    | none =>
      parentLoop r visit commit rest
        (s.emit [Event.use commit.handle, Event.parentResolve commit.id i none])
    | some pid =>
      let h := s.nextHandle
      match visit ⟨h, pid⟩
          (s.alloc [Event.use commit.handle, Event.parentResolve commit.id i (some pid),
            Event.acquire h]) with
      | Res.timeout s2 => Res.timeout s2
      | Res.done s2 => parentLoop r visit commit rest (s2.emit [Event.release h])

/-- Lines 105-113 of `processCommit` past the cut: the identifier is now in
`knownCommits` and `git_commit_parentcount(commit)` was read. -/
def State.insert (s : State) (commit : Commit) : State :=
  { s with knownCommits := commit.id :: s.knownCommits,
           trace := s.trace ++ [Event.enter commit.id, Event.use commit.handle] }

/-- Lines 126-140 of `processCommit`: resolve the tree of the commit, walk it
with `treeMetricsCallback`, free it and count the commit. -/
def scanCommit (r : Repo) (commit : Commit) (s : State) : State :=
  match r.tree commit.id with
  | none => s.emit [Event.use commit.handle, Event.treeResolve commit.id false]
  | some t =>
    let th := s.nextHandle
    -- lines 132-137
    let s3 := s.alloc [Event.use commit.handle, Event.treeResolve commit.id true,
      Event.acquire th, Event.scanBegin commit.id, Event.use commit.handle, Event.use th]
    let s4 := (treeWalk (treeMetricsCallback r commit) "" t s3).1
    -- lines 137-140
    { s4 with processedCount := s4.processedCount + 1,
              trace := s4.trace ++ [Event.scanEnd commit.id, Event.release th] }

/-- Function `processCommit` (lines 96-141) with a depth budget: each
recursive call gets one unit less, and a call without budget stops the run. -/
def processCommit (r : Repo) : Nat → Commit → State → Res
  | 0, _, s => Res.timeout s
  | fuel + 1, commit, s =>
    -- line 99: `git_commit_id(commit)`
    let s0 := s.emit [Event.use commit.handle]
    -- lines 105-109
    if commit.id ∈ s0.knownCommits then Res.done s0
    else
      -- lines 113-124
      match parentLoop r (processCommit r fuel) commit
          (List.range (r.parentCount commit.id)) (s0.insert commit) with
      | Res.timeout s2 => Res.timeout s2
      | Res.done s2 => Res.done (scanCommit r commit s2)

/-- What the process is started with: `argc` and what
`git_repository_open_ext` finds at `argv[1]`. -/
structure Env where
  argc : Nat
  repo : Option Repo

/-- Function `getHead` (lines 42-52): the commit `HEAD` names, `none` for `nullptr`. -/
def getHead (r : Repo) : Option Oid := r.head

/-- State at program start: both globals empty, no event yet. -/
def State.init : State :=
  { knownCommits := [], processedCount := 0, nextHandle := 0, trace := [] }

/-- State in which `main` calls `processCommit` (line 175): `getHead` handed
out handle `0` for the head commit and line 174 read its identifier. -/
def State.withHead : State :=
  State.init.alloc [Event.acquire 0, Event.use 0]

/-- Function `main` (lines 146-179): the exit code and the final state, `none` when the
traversal exceeds the depth budget. -/
def main (fuel : Nat) (env : Env) : Option (Int × State) :=
  if env.argc ≠ 2 then some (1, State.init)
  else
    match env.repo with
    | none => some (-1, State.init)
    | some r =>
      match getHead r with
      | none => some (-1, State.init)
      | some hid =>
        match processCommit r fuel ⟨0, hid⟩ State.withHead with
        | Res.timeout _ => none
        | Res.done s => some (0, s.emit [Event.release 0])

/-- Several calls of `processCommit` one after the other on the same globals. -/
def runAll (r : Repo) (fuel : Nat) : List Commit → State → Res
  | [], s => Res.done s
  | c :: cs, s =>
    match processCommit r fuel c s with
    | Res.timeout s' => Res.timeout s'
    | Res.done s' => runAll r fuel cs s'

/-! ## Projections of a trace -/

/-- Identifiers inserted in `knownCommits`, in order. -/
def enters (t : List Event) : List Oid :=
  t.filterMap fun e => match e with
    | Event.enter c => some c
    | _ => none

/-- Commits whose scan started, in order. -/
def scans (t : List Event) : List Oid :=
  t.filterMap fun e => match e with
    | Event.scanBegin c => some c
    | _ => none

/-- Blame calls, in order: path and `newest_commit`. -/
def blameAttempts (t : List Event) : List (String × Oid) :=
  t.filterMap fun e => match e with
    | Event.blameAttempt p c _ => some (p, c)
    | _ => none

/-- Calls of `git_commit_parent` made on commit `m`, in order: index and answer. -/
def parentAttempts (m : Oid) (t : List Event) : List (Nat × Option Oid) :=
  t.filterMap fun e => match e with
    | Event.parentResolve c i res => if c = m then some (i, res) else none
    | _ => none

/-! ## Example repositories -/

/-- Linear history: `0` is the root `A`, `1` is `B`, `2` is `C`; `C` adds file `x`. -/
def linearRepo : Repo where
  head := some 2
  parentCount := fun c => if c = 1 ∨ c = 2 then 1 else 0
  parent := fun c i => if i = 0 ∧ (c = 1 ∨ c = 2) then some (c - 1) else none
  tree := fun c => if c = 2 then some (Tree.blob "x" Tree.nil) else some Tree.nil
  blame := fun _ _ => some 1

/-- Merge history: `3` merges `1` and `2`, both children of the root `0`. -/
def diamondRepo : Repo where
  head := some 3
  parentCount := fun c => if c = 3 then 2 else if c = 1 ∨ c = 2 then 1 else 0
  parent := fun c i =>
    if c = 3 ∧ i = 0 then some 1 else if c = 3 ∧ i = 1 then some 2
    else if (c = 1 ∨ c = 2) ∧ i = 0 then some 0 else none
  tree := fun c => if c = 3 then some (Tree.blob "a.txt" (Tree.blob "b.txt" Tree.nil))
    else some Tree.nil
  blame := fun _ p => if p = "a.txt" then none else some 2

/-- A parent relation with a cycle and a self loop, as no object store can
hold: `0` lists `1`, and `1` lists `0`, itself and a parent that fails. -/
def cyclicRepo : Repo where
  head := some 0
  parentCount := fun c => if c = 0 then 1 else if c = 1 then 3 else 0
  parent := fun c i =>
    if c = 0 ∧ i = 0 then some 1 else if c = 1 ∧ i = 0 then some 0
    else if c = 1 ∧ i = 1 then some 1 else none
  tree := fun c => if c = 0 then none else some Tree.nil
  blame := fun _ _ => none

/-- Merge whose second parent is missing, as in a shallow clone: `3` lists
`1` and a parent that fails to resolve, `1` is a child of the root `0`. -/
def shallowRepo : Repo where
  head := some 3
  parentCount := fun c => if c = 3 then 2 else if c = 1 then 1 else 0
  parent := fun c i =>
    if c = 3 ∧ i = 0 then some 1 else if c = 1 ∧ i = 0 then some 0 else none
  tree := fun _ => some Tree.nil
  blame := fun _ _ => some 0

/-- Linear history `0`, `1`, `2` in which the tree of `1` fails to resolve. -/
def brokenTreeRepo : Repo where
  head := some 2
  parentCount := fun c => if c = 1 ∨ c = 2 then 1 else 0
  parent := fun c i => if i = 0 ∧ (c = 1 ∨ c = 2) then some (c - 1) else none
  tree := fun c => if c = 1 then none else some (Tree.blob "f" Tree.nil)
  blame := fun _ _ => some 1

/-- Entries of a tree in pre-order, each with the prefix it is met under:
an entry comes before the entries below it, and these before its later
siblings. -/
def Tree.entries : String → Tree → List (String × EntryType × String)
  | _, Tree.nil => []
  | root, Tree.blob name rest => (root, EntryType.blob, name) :: Tree.entries root rest
  | root, Tree.link name rest => (root, EntryType.commit, name) :: Tree.entries root rest
  | root, Tree.dir name sub rest =>
    (root, EntryType.tree, name) ::
      (Tree.entries (root ++ name ++ "/") sub ++ Tree.entries root rest)

/-- The blame calls a scan owes: one for each blob entry, in pre-order, for the
path made of prefix and name, anchored at the commit `cid`. -/
def expectedBlames (cid : Oid) (root : String) (t : Tree) : List (String × Oid) :=
  (t.entries root).filterMap fun e =>
    if e.2.1 = EntryType.blob then some (e.1 ++ e.2.2, cid) else none

/-! ## Depth-first post-order, as the specification words it -/

/-- Parents of a commit that resolve, in parent-index order. -/
def Repo.parents (r : Repo) (c : Oid) : List Oid :=
  (List.range (r.parentCount c)).filterMap (r.parent c)

/-- Explore the given commits one after the other with `visit`, threading the
visited-set and concatenating the orders. -/
def dfsParents (visit : Oid → List Oid → Option (List Oid × List Oid)) :
    List Oid → List Oid → Option (List Oid × List Oid)
  | [], visited => some (visited, [])
  | p :: ps, visited =>
    match visit p visited with
    | none => none
    | some (visited1, order1) =>
      match dfsParents visit ps visited1 with
      | none => none
      | some (visited2, order2) => some (visited2, order1 ++ order2)

/-- Depth-first post-order from `c`: an already visited commit is skipped;
otherwise the commit is marked, its parents are explored in parent-index
order, and the commit comes after all that they yield.  The result is the
visited-set and the order; `none` when the depth budget is exceeded. -/
def dfsPostOrder (parents : Oid → List Oid) :
    Nat → Oid → List Oid → Option (List Oid × List Oid)
  | 0, _, _ => none
  | fuel + 1, c, visited =>
    if c ∈ visited then some (visited, [])
    else
      match dfsParents (dfsPostOrder parents fuel) (parents c) (c :: visited) with
      | none => none
      | some (visited', order) => some (visited', order ++ [c])

/-! ## Handle discipline -/

/-- One step of the handle monitor on the pair of the handles held (`live`)
and the handles released (`dead`): a handle is handed out only if never seen
before, read only while held, and released only while held.  `none` is a
violation. -/
def handleStep (st : List Nat × List Nat) : Event → Option (List Nat × List Nat)
  | Event.acquire h => if h ∈ st.1 ∨ h ∈ st.2 then none else some (h :: st.1, st.2)
  | Event.use h => if h ∈ st.1 then some st else none
  | Event.release h => if h ∈ st.1 then some (st.1.erase h, h :: st.2) else none
  | _ => some st

/-- Run the handle monitor over a trace. -/
def handleCheck : List Event → List Nat × List Nat → Option (List Nat × List Nat)
  | [], st => some st
  | e :: t, st =>
    match handleStep st e with
    | none => none
    | some st' => handleCheck t st'

/-- A call that resolved a parent, a tree or a blame. -/
def Event.isSuccess : Event → Bool
  | Event.parentResolve _ _ (some _) => true
  | Event.treeResolve _ true => true
  | Event.blameAttempt _ _ true => true
  | _ => false

/-- A handle is handed out. -/
def Event.isAcquire : Event → Bool
  | Event.acquire _ => true
  | _ => false

/-- A handle is released. -/
def Event.isRelease : Event → Bool
  | Event.release _ => true
  | _ => false

/-- The events `seg`, emitted between the states `s` and `s'` by code that
holds the handle `own`, keep the handle discipline and leave the held
handles as they were, for any handles held and released before that the
object store has already handed out. -/
def HSafe (own : Nat) (s s' : State) (seg : List Event) : Prop :=
  ∀ live dead, own ∈ live → (∀ h ∈ live, h < s.nextHandle) →
    (∀ h ∈ dead, h < s.nextHandle) →
    ∃ dead', handleCheck seg (live, dead) = some (live, dead') ∧
      ∀ h ∈ dead', h < s'.nextHandle

/-- As many handles handed out, and as many released, as resolutions that
succeeded. -/
def Balanced (seg : List Event) : Prop :=
  seg.countP Event.isAcquire = seg.countP Event.isSuccess ∧
  seg.countP Event.isRelease = seg.countP Event.isSuccess

/-! ## The commit graph -/

/-- Commit `p` is a parent of `c` that resolves: some index below the parent
count of `c` yields `p`. -/
def Parent (r : Repo) (c p : Oid) : Prop :=
  ∃ i, i < r.parentCount c ∧ r.parent c i = some p

/-- Commit `a` is `c` or an ancestor of `c` through resolving parent links. -/
def Reach (r : Repo) : Oid → Oid → Prop := Relation.ReflTransGen (Parent r)

/-- Commit `a` is a proper ancestor of `c`. -/
def Anc (r : Repo) : Oid → Oid → Prop := Relation.TransGen (Parent r)

/-- The list `U` holds every parent that resolves from a commit of `U`. -/
def Closed (r : Repo) (U : List Oid) : Prop :=
  ∀ c ∈ U, ∀ i < r.parentCount c, ∀ p ∈ r.parent c i, p ∈ U

instance (r : Repo) (U : List Oid) : Decidable (Closed r U) := by
  unfold Closed; infer_instance

/-- Every commit of `U` has a tree that resolves. -/
def TreesResolve (r : Repo) (U : List Oid) : Prop :=
  ∀ c ∈ U, (r.tree c).isSome = true

instance (r : Repo) (U : List Oid) : Decidable (TreesResolve r U) := by
  unfold TreesResolve; infer_instance

/-- No commit of `U` is its own proper ancestor. -/
def Acyclic (r : Repo) (U : List Oid) : Prop :=
  ∀ c ∈ U, ¬ Anc r c c

/-- Number of distinct identifiers of `U` that are not in `known`. -/
def unvisitedCount (U known : List Oid) : Nat :=
  ((U.dedup).filter (fun c => decide (c ∉ known))).length

/-- Every event of the second list satisfies `P` with respect to the events
before it, the first list being those that came earlier. -/
def Ordered (P : Event → List Event → Prop) : List Event → List Event → Prop
  | _, [] => True
  | acc, e :: t => P e acc ∧ Ordered P (acc ++ [e]) t

/-- Ancestors first: when the scan of `x` starts every proper ancestor of `x`
has completed its scan, and when a frame resolves parent `p` that was already
entered, `p` has completed its scan.  Also, when the scan of `x` starts each
parent index of `x` has had its call of `git_commit_parent`. -/
def Ord (r : Repo) (e : Event) (pre : List Event) : Prop :=
  (∀ x, e = Event.scanBegin x → ∀ a, Anc r x a → Event.scanEnd a ∈ pre) ∧
  (∀ x i p, e = Event.parentResolve x i (some p) → Event.enter p ∈ pre →
    Event.scanEnd p ∈ pre) ∧
  (∀ x, e = Event.scanBegin x → ∀ i < r.parentCount x,
    Event.parentResolve x i (r.parent x i) ∈ pre)

/-- Commit a frame event belongs to. -/
def Event.owner : Event → Option Oid
  | Event.parentResolve c _ _ => some c
  | Event.treeResolve c _ => some c
  | Event.scanBegin c => some c
  | Event.scanEnd c => some c
  | _ => none

/-- Events a tree walk can emit. -/
def Event.isWalk : Event → Bool
  | Event.acquire _ => true
  | Event.use _ => true
  | Event.release _ => true
  | Event.blameAttempt _ _ _ => true
  | _ => false

/-! ## Predicates used by the proofs -/

/-- What a tree walk changes: nothing but the handle counter and the trace,
which grows by walk events. -/
structure WalkStep (s s' : State) (seg : List Event) : Prop where
  trace_eq : s'.trace = s.trace ++ seg
  known_eq : s'.knownCommits = s.knownCommits
  count_eq : s'.processedCount = s.processedCount
  handle_le : s.nextHandle ≤ s'.nextHandle
  walk : ∀ e ∈ seg, e.isWalk = true

/-- State `s'` follows `s` by the events `seg`: the identifiers entered are
new and distinct, they are what `knownCommits` gained, every scan is of an
identifier entered, and the counter counts the scans. -/
structure Core (s s' : State) (seg : List Event) : Prop where
  trace_eq : s'.trace = s.trace ++ seg
  known_eq : s'.knownCommits = (enters seg).reverse ++ s.knownCommits
  fresh : ∀ x ∈ enters seg, x ∉ s.knownCommits
  nodup : (enters seg).Nodup
  count_eq : s'.processedCount = s.processedCount + (scans seg).length
  handle_le : s.nextHandle ≤ s'.nextHandle
  scans_sub : ∀ x ∈ scans seg, x ∈ enters seg
  scans_nodup : (scans seg).Nodup

/-- The events of lines 126-140 for commit `c` when the next free handle is `nh`. -/
def IsFin (r : Repo) (c : Commit) (nh : Nat) (fin : List Event) : Prop :=
  (r.tree c.id = none ∧ fin = [Event.use c.handle, Event.treeResolve c.id false]) ∨
  (∃ t w, r.tree c.id = some t ∧ (∀ e ∈ w, e.isWalk = true) ∧
    fin = [Event.use c.handle, Event.treeResolve c.id true, Event.acquire nh,
      Event.scanBegin c.id, Event.use c.handle, Event.use nh] ++ w ++
      [Event.scanEnd c.id, Event.release nh])

/-- A finished call on commit `c`: `c` is known afterwards, every identifier
entered is `c` or an ancestor of `c`, all resolving parents of an entered
identifier are known afterwards, and the scanned identifiers are the entered
ones whose tree resolves. -/
structure Visit (r : Repo) (c : Oid) (s s' : State) (seg : List Event) : Prop where
  core : Core s s' seg
  mem : c ∈ s'.knownCommits
  sound : ∀ x ∈ enters seg, Reach r c x
  closed : ∀ x ∈ enters seg, ∀ p, Parent r x p → p ∈ s'.knownCommits
  scanned : ∀ x, x ∈ scans seg ↔ x ∈ enters seg ∧ (r.tree x).isSome = true
  owned : ∀ e ∈ seg, ∀ y, e.owner = some y → y ∈ enters seg

/-- A finished parent loop of commit `x` over the indices `is`. -/
structure LoopVisit (r : Repo) (x : Oid) (is : List Nat) (s s' : State) (seg : List Event) :
    Prop where
  core : Core s s' seg
  mem : ∀ i ∈ is, ∀ p ∈ r.parent x i, p ∈ s'.knownCommits
  sound : ∀ y ∈ enters seg, ∃ i ∈ is, ∃ p ∈ r.parent x i, Reach r p y
  closed : ∀ y ∈ enters seg, ∀ p, Parent r y p → p ∈ s'.knownCommits
  scanned : ∀ y, y ∈ scans seg ↔ y ∈ enters seg ∧ (r.tree y).isSome = true
  owned : ∀ e ∈ seg, ∀ y, e.owner = some y → y = x ∨ y ∈ enters seg
  attempts : x ∈ s.knownCommits → parentAttempts x seg = is.map (fun i => (i, r.parent x i))

/-- Invariant of a traversal, over the events `cur` since its start and the
visited-set `K`. -/
structure TInv (r : Repo) (cur : List Event) (K : List Oid) : Prop where
  ordered : Ordered (Ord r) [] cur
  black : ∀ b, Event.scanEnd b ∈ cur → ∀ p, Parent r b p → Event.scanEnd p ∈ cur
  known : ∀ p, Event.enter p ∈ cur → p ∈ K

/-- After a call: the invariant holds again and every identifier that became
known has completed its scan. -/
structure TPost (r : Repo) (tr : List Event) (K K' : List Oid) : Prop where
  inv : TInv r tr K'
  gray : ∀ g ∈ K', g ∈ K ∨ Event.scanEnd g ∈ tr

/-! ## Unfolding -/

theorem processCommit_zero (r : Repo) (c : Commit) (s : State) :
    processCommit r 0 c s = Res.timeout s := rfl

theorem processCommit_known (r : Repo) (fuel : Nat) (c : Commit) (s : State)
    (h : c.id ∈ s.knownCommits) :
    processCommit r (fuel + 1) c s = Res.done (s.emit [Event.use c.handle]) := by
  simp [processCommit, State.emit, h]

theorem processCommit_new (r : Repo) (fuel : Nat) (c : Commit) (s : State)
    (h : c.id ∉ s.knownCommits) :
    processCommit r (fuel + 1) c s =
      match parentLoop r (processCommit r fuel) c (List.range (r.parentCount c.id))
          ((s.emit [Event.use c.handle]).insert c) with
      | Res.timeout s2 => Res.timeout s2
      | Res.done s2 => Res.done (scanCommit r c s2) := by
  simp [processCommit, State.emit, h]

theorem parentLoop_nil (r : Repo) (visit : Commit → State → Res) (c : Commit) (s : State) :
    parentLoop r visit c [] s = Res.done s := rfl

theorem parentLoop_none (r : Repo) (visit : Commit → State → Res) (c : Commit) (i : Nat)
    (rest : List Nat) (s : State) (h : r.parent c.id i = none) :
    parentLoop r visit c (i :: rest) s =
      parentLoop r visit c rest
        (s.emit [Event.use c.handle, Event.parentResolve c.id i none]) := by
  simp [parentLoop, h]

theorem parentLoop_some (r : Repo) (visit : Commit → State → Res) (c : Commit) (i : Nat)
    (rest : List Nat) (s : State) (p : Oid) (h : r.parent c.id i = some p) :
    parentLoop r visit c (i :: rest) s =
      match visit ⟨s.nextHandle, p⟩
          (s.alloc [Event.use c.handle, Event.parentResolve c.id i (some p),
            Event.acquire s.nextHandle]) with
      | Res.timeout s2 => Res.timeout s2
      | Res.done s2 => parentLoop r visit c rest (s2.emit [Event.release s.nextHandle]) := by
  simp [parentLoop, h]

/-! ## Projections and appending -/

@[simp] theorem enters_nil : enters [] = [] := rfl

@[simp] theorem scans_nil : scans [] = [] := rfl

@[simp] theorem enters_append (a b : List Event) : enters (a ++ b) = enters a ++ enters b := by
  simp [enters, List.filterMap_append]

@[simp] theorem scans_append (a b : List Event) : scans (a ++ b) = scans a ++ scans b := by
  simp [scans, List.filterMap_append]

@[simp] theorem enters_cons (e : Event) (t : List Event) :
    enters (e :: t) = (match e with | Event.enter c => [c] | _ => []) ++ enters t := by
  cases e <;> simp [enters, List.filterMap_cons]

@[simp] theorem scans_cons (e : Event) (t : List Event) :
    scans (e :: t) = (match e with | Event.scanBegin c => [c] | _ => []) ++ scans t := by
  cases e <;> simp [scans, List.filterMap_cons]

theorem mem_enters {t : List Event} {c : Oid} : c ∈ enters t ↔ Event.enter c ∈ t := by
  induction t with
  | nil => simp
  | cons e t ih => cases e <;> simp [ih]

theorem mem_scans {t : List Event} {c : Oid} : c ∈ scans t ↔ Event.scanBegin c ∈ t := by
  induction t with
  | nil => simp
  | cons e t ih => cases e <;> simp [ih]

theorem enters_of_walk {t : List Event} (h : ∀ e ∈ t, e.isWalk = true) : enters t = [] := by
  induction t with
  | nil => rfl
  | cons e t ih =>
    have he := h e (List.mem_cons_self _ _)
    have ht := ih (fun e' he' => h e' (List.mem_cons_of_mem _ he'))
    cases e <;> simp_all [Event.isWalk]

theorem scans_of_walk {t : List Event} (h : ∀ e ∈ t, e.isWalk = true) : scans t = [] := by
  induction t with
  | nil => rfl
  | cons e t ih =>
    have he := h e (List.mem_cons_self _ _)
    have ht := ih (fun e' he' => h e' (List.mem_cons_of_mem _ he'))
    cases e <;> simp_all [Event.isWalk]

/-! ## The tree walk only adds walk events -/

theorem WalkStep.id_walk (s : State) : WalkStep s s [] :=
  ⟨by simp, rfl, rfl, le_refl _, by simp⟩

theorem WalkStep.seq_walk {s s1 s2 : State} {a b : List Event}
    (h1 : WalkStep s s1 a) (h2 : WalkStep s1 s2 b) : WalkStep s s2 (a ++ b) := by
  refine ⟨?_, ?_, ?_, ?_, ?_⟩
  · rw [h2.trace_eq, h1.trace_eq, List.append_assoc]
  · rw [h2.known_eq, h1.known_eq]
  · rw [h2.count_eq, h1.count_eq]
  · exact le_trans h1.handle_le h2.handle_le
  · intro e he
    rcases List.mem_append.mp he with h | h
    · exact h1.walk e h
    · exact h2.walk e h

theorem callback_other (r : Repo) (c : Commit) (root : String) (ty : EntryType) (name : String)
    (s : State) (h : ty ≠ EntryType.blob) : treeMetricsCallback r c root ty name s = (s, 0) := by
  simp [treeMetricsCallback, h]

theorem callback_fail (r : Repo) (c : Commit) (root name : String) (s : State)
    (h : r.blame c.id (root ++ name) = none) :
    treeMetricsCallback r c root EntryType.blob name s =
      (s.emit [Event.use c.handle, Event.blameAttempt (root ++ name) c.id false], 0) := by
  simp [treeMetricsCallback, h]

theorem callback_ok (r : Repo) (c : Commit) (root name : String) (s : State) (n : Nat)
    (h : r.blame c.id (root ++ name) = some n) :
    treeMetricsCallback r c root EntryType.blob name s =
      (s.alloc ([Event.use c.handle, Event.blameAttempt (root ++ name) c.id true,
          Event.acquire s.nextHandle, Event.use s.nextHandle]
          ++ List.replicate n (Event.use s.nextHandle) ++ [Event.release s.nextHandle]), 0) := by
  simp [treeMetricsCallback, h]

theorem callback_rc (r : Repo) (c : Commit) (root : String) (ty : EntryType) (name : String)
    (s : State) : (treeMetricsCallback r c root ty name s).2 = 0 := by
  by_cases hty : ty = EntryType.blob
  · subst hty
    cases hb : r.blame c.id (root ++ name) with
    | none => rw [callback_fail r c root name s hb]
    | some n => rw [callback_ok r c root name s n hb]
  · rw [callback_other r c root ty name s hty]

theorem callback_step (r : Repo) (c : Commit) (root : String) (ty : EntryType) (name : String)
    (s : State) : ∃ seg, WalkStep s (treeMetricsCallback r c root ty name s).1 seg := by
  by_cases hty : ty = EntryType.blob
  · subst hty
    cases hb : r.blame c.id (root ++ name) with
    | none =>
      rw [callback_fail r c root name s hb]
      exact ⟨_, rfl, rfl, rfl, le_refl _, by simp [Event.isWalk]⟩
    | some n =>
      rw [callback_ok r c root name s n hb]
      refine ⟨_, rfl, rfl, rfl, Nat.le_succ _, ?_⟩
      intro e he
      simp only [List.mem_append, List.mem_cons, List.mem_replicate, List.mem_singleton,
        List.not_mem_nil, or_false] at he
      rcases he with ((h | h | h | h) | h) | h
      all_goals first | (rw [h]; rfl) | (rw [h.2]; rfl)
  · rw [callback_other r c root ty name s hty]
    exact ⟨[], WalkStep.id_walk s⟩

theorem treeWalk_step (r : Repo) (c : Commit) (t : Tree) :
    ∀ (root : String) (s : State),
      (treeWalk (treeMetricsCallback r c) root t s).2 = 0 ∧
      ∃ seg, WalkStep s (treeWalk (treeMetricsCallback r c) root t s).1 seg := by
  induction t with
  | nil => intro root s; exact ⟨rfl, [], WalkStep.id_walk s⟩
  | blob name rest ih =>
    intro root s
    obtain ⟨a, ha⟩ := callback_step r c root EntryType.blob name s
    have hrc := callback_rc r c root EntryType.blob name s
    obtain ⟨h0, b, hb⟩ := ih root (treeMetricsCallback r c root EntryType.blob name s).1
    simp only [treeWalk, hrc, lt_self_iff_false, if_false]
    exact ⟨h0, a ++ b, ha.seq_walk hb⟩
  | link name rest ih =>
    intro root s
    obtain ⟨a, ha⟩ := callback_step r c root EntryType.commit name s
    have hrc := callback_rc r c root EntryType.commit name s
    obtain ⟨h0, b, hb⟩ := ih root (treeMetricsCallback r c root EntryType.commit name s).1
    simp only [treeWalk, hrc, lt_self_iff_false, if_false]
    exact ⟨h0, a ++ b, ha.seq_walk hb⟩
  | dir name sub rest ihs ihr =>
    intro root s
    obtain ⟨a, ha⟩ := callback_step r c root EntryType.tree name s
    have hrc := callback_rc r c root EntryType.tree name s
    obtain ⟨h0, b, hb⟩ := ihs (root ++ name ++ "/") (treeMetricsCallback r c root EntryType.tree name s).1
    obtain ⟨h1, d, hd⟩ := ihr root
      (treeWalk (treeMetricsCallback r c) (root ++ name ++ "/") sub
        (treeMetricsCallback r c root EntryType.tree name s).1).1
    simp only [treeWalk, hrc, lt_self_iff_false, if_false, h0, ne_eq, not_true_eq_false]
    exact ⟨h1, a ++ (b ++ d), ha.seq_walk (hb.seq_walk hd)⟩

/-! ## What every run preserves -/

theorem Core.known_mono {s s' : State} {seg : List Event} (h : Core s s' seg) {x : Oid}
    (hx : x ∈ s.knownCommits) : x ∈ s'.knownCommits := by
  rw [h.known_eq]; exact List.mem_append_right _ hx

theorem Core.mem_known {s s' : State} {seg : List Event} (h : Core s s' seg) {x : Oid} :
    x ∈ s'.knownCommits ↔ x ∈ enters seg ∨ x ∈ s.knownCommits := by
  rw [h.known_eq]; simp

theorem Core.seg_unique {s s' : State} {a b : List Event} (ha : Core s s' a)
    (hb : Core s s' b) : a = b :=
  List.append_cancel_left (ha.trace_eq.symm.trans hb.trace_eq)

theorem Core.id_run (s : State) : Core s s [] :=
  ⟨by simp, by simp, by simp, by simp, by simp, le_refl _, by simp, by simp⟩

theorem Core.seq {s s1 s2 : State} {a b : List Event}
    (h1 : Core s s1 a) (h2 : Core s1 s2 b) : Core s s2 (a ++ b) := by
  have hdis : ∀ x ∈ enters a, x ∉ enters b := fun x hxa hxb =>
    h2.fresh x hxb (h1.mem_known.mpr (Or.inl hxa))
  refine ⟨?_, ?_, ?_, ?_, ?_, ?_, ?_, ?_⟩
  · rw [h2.trace_eq, h1.trace_eq, List.append_assoc]
  · rw [h2.known_eq, h1.known_eq]; simp
  · intro x hx
    rw [enters_append] at hx
    rcases List.mem_append.mp hx with h | h
    · exact h1.fresh x h
    · exact fun hk => h2.fresh x h (h1.known_mono hk)
  · rw [enters_append]
    exact List.Nodup.append h1.nodup h2.nodup (fun x hxa hxb => hdis x hxa hxb)
  · rw [h2.count_eq, h1.count_eq]; simp; omega
  · exact le_trans h1.handle_le h2.handle_le
  · intro x hx
    rw [scans_append] at hx
    rw [enters_append]
    rcases List.mem_append.mp hx with h | h
    · exact List.mem_append_left _ (h1.scans_sub x h)
    · exact List.mem_append_right _ (h2.scans_sub x h)
  · rw [scans_append]
    exact List.Nodup.append h1.scans_nodup h2.scans_nodup
      (fun x hxa hxb => hdis x (h1.scans_sub x hxa) (h2.scans_sub x hxb))

theorem Core.of_walk {s s' : State} {seg : List Event} (h : WalkStep s s' seg) :
    Core s s' seg := by
  have he := enters_of_walk h.walk
  have hs := scans_of_walk h.walk
  exact ⟨h.trace_eq, by rw [he, h.known_eq]; rfl, by simp [he], by simp [he],
    by rw [hs, h.count_eq]; rfl, h.handle_le, by simp [hs], by simp [hs]⟩

theorem WalkStep.emit_walk (s : State) (evs : List Event) (h : ∀ e ∈ evs, e.isWalk = true) :
    WalkStep s (s.emit evs) evs :=
  ⟨rfl, rfl, rfl, le_refl _, h⟩

theorem WalkStep.alloc_walk (s : State) (evs : List Event) (h : ∀ e ∈ evs, e.isWalk = true) :
    WalkStep s (s.alloc evs) evs :=
  ⟨rfl, rfl, rfl, Nat.le_succ _, h⟩

/-- A state change that touches neither global: only events without an
`enter` or `scanBegin` are added. -/
theorem Core.of_quiet {s s' : State} {evs : List Event} (ht : s'.trace = s.trace ++ evs)
    (hk : s'.knownCommits = s.knownCommits) (hc : s'.processedCount = s.processedCount)
    (hh : s.nextHandle ≤ s'.nextHandle) (he : enters evs = []) (hs : scans evs = []) :
    Core s s' evs :=
  ⟨ht, by rw [he, hk]; rfl, by simp [he], by simp [he], by rw [hs, hc]; rfl, hh,
    by simp [hs], by simp [hs]⟩

theorem Core.of_emit (s : State) (evs : List Event) (he : enters evs = []) (hs : scans evs = []) :
    Core s (s.emit evs) evs :=
  Core.of_quiet rfl rfl rfl (le_refl _) he hs

theorem Core.of_alloc (s : State) (evs : List Event) (he : enters evs = []) (hs : scans evs = []) :
    Core s (s.alloc evs) evs :=
  Core.of_quiet rfl rfl rfl (Nat.le_succ _) he hs

theorem Core.insert (s : State) (c : Commit) (h : c.id ∉ s.knownCommits) :
    Core s (s.insert c) [Event.enter c.id, Event.use c.handle] :=
  ⟨rfl, by simp [State.insert], by simpa using h, by simp, by simp [State.insert], le_refl _,
    by simp, by simp⟩

theorem IsFin.enters {r : Repo} {c : Commit} {nh : Nat} {fin : List Event}
    (h : IsFin r c nh fin) : enters fin = [] := by
  rcases h with ⟨_, hfin⟩ | ⟨t, w, _, hw, hfin⟩
  · rw [hfin]; simp
  · rw [hfin]; simp [enters_of_walk hw]

theorem IsFin.scans {r : Repo} {c : Commit} {nh : Nat} {fin : List Event}
    (h : IsFin r c nh fin) :
    scans fin = if (r.tree c.id).isSome then [c.id] else [] := by
  rcases h with ⟨ht, hfin⟩ | ⟨t, w, ht, hw, hfin⟩
  · rw [hfin, ht]; simp
  · rw [hfin, ht]; simp [scans_of_walk hw]

/-- Lines 126-140 as a state change. -/
theorem scanCommit_trace (r : Repo) (c : Commit) (s : State) :
    ∃ fin, IsFin r c s.nextHandle fin ∧ (scanCommit r c s).trace = s.trace ++ fin ∧
      (scanCommit r c s).knownCommits = s.knownCommits ∧
      s.nextHandle ≤ (scanCommit r c s).nextHandle ∧
      (scanCommit r c s).processedCount = s.processedCount + (scans fin).length := by
  unfold scanCommit
  cases ht : r.tree c.id with
  | none =>
    exact ⟨_, Or.inl ⟨ht, rfl⟩, rfl, rfl, le_refl _, by simp [State.emit]⟩
  | some t =>
    obtain ⟨_, w, hw⟩ := treeWalk_step r c t ""
      (s.alloc [Event.use c.handle, Event.treeResolve c.id true,
        Event.acquire s.nextHandle, Event.scanBegin c.id, Event.use c.handle,
        Event.use s.nextHandle])
    refine ⟨_, Or.inr ⟨t, w, ht, hw.walk, rfl⟩, ?_, ?_, ?_, ?_⟩
    · dsimp only
      rw [hw.trace_eq]
      simp [State.alloc]
    · dsimp only
      rw [hw.known_eq]
      rfl
    · exact le_trans (Nat.le_succ _) hw.handle_le
    · dsimp only
      rw [hw.count_eq]
      simp [scans_of_walk hw.walk, State.alloc]

theorem Core.finish (r : Repo) {s s2 : State} {seg : List Event} (h : Core s s2 seg)
    (c : Commit) (hin : c.id ∈ enters seg) (hns : c.id ∉ scans seg) :
    ∃ fin, IsFin r c s2.nextHandle fin ∧ Core s (scanCommit r c s2) (seg ++ fin) := by
  obtain ⟨fin, hf, ht, hk, hh, hc⟩ := scanCommit_trace r c s2
  refine ⟨fin, hf, ?_⟩
  have he := hf.enters
  have hs := hf.scans
  refine ⟨?_, ?_, ?_, ?_, ?_, ?_, ?_, ?_⟩
  · rw [ht, h.trace_eq, List.append_assoc]
  · rw [hk, h.known_eq, enters_append, he, List.append_nil]
  · rw [enters_append, he, List.append_nil]; exact h.fresh
  · rw [enters_append, he, List.append_nil]; exact h.nodup
  · rw [hc, h.count_eq, scans_append, List.length_append]; omega
  · exact le_trans h.handle_le hh
  · intro x hx
    rw [scans_append, hs] at hx
    rw [enters_append, he, List.append_nil]
    rcases List.mem_append.mp hx with hx | hx
    · exact h.scans_sub x hx
    · split at hx
      · rw [List.mem_singleton.mp hx]; exact hin
      · simp at hx
  · rw [scans_append, hs]
    split
    · exact List.Nodup.append h.scans_nodup (List.nodup_singleton _)
        (fun x hxa hxb => hns (by rw [← List.mem_singleton.mp hxb]; exact hxa))
    · simpa using h.scans_nodup

theorem parentLoop_core (r : Repo) (visit : Commit → State → Res)
    (hv : ∀ c s, ∃ seg, Core s (visit c s).state seg) (c : Commit) :
    ∀ (is : List Nat) (s : State), ∃ seg, Core s (parentLoop r visit c is s).state seg := by
  intro is
  induction is with
  | nil => intro s; exact ⟨[], Core.id_run s⟩
  | cons i rest ih =>
    intro s
    cases hp : r.parent c.id i with
    | none =>
      rw [parentLoop_none r visit c i rest s hp]
      obtain ⟨b, hb⟩ := ih (s.emit [Event.use c.handle, Event.parentResolve c.id i none])
      exact ⟨_, (Core.of_emit s _ (by simp) (by simp)).seq hb⟩
    | some p =>
      rw [parentLoop_some r visit c i rest s p hp]
      have h1 := Core.of_alloc s [Event.use c.handle, Event.parentResolve c.id i (some p),
          Event.acquire s.nextHandle] (by simp) (by simp)
      obtain ⟨a, ha⟩ := hv ⟨s.nextHandle, p⟩ (s.alloc [Event.use c.handle,
        Event.parentResolve c.id i (some p), Event.acquire s.nextHandle])
      cases hres : visit ⟨s.nextHandle, p⟩ (s.alloc [Event.use c.handle,
        Event.parentResolve c.id i (some p), Event.acquire s.nextHandle]) with
      | timeout s2 =>
        rw [hres] at ha
        exact ⟨_, h1.seq ha⟩
      | done s2 =>
        rw [hres] at ha
        obtain ⟨b, hb⟩ := ih (s2.emit [Event.release s.nextHandle])
        exact ⟨_, (h1.seq ha).seq
          ((Core.of_emit s2 [Event.release s.nextHandle] (by simp) (by simp)).seq hb)⟩

theorem processCommit_core (r : Repo) :
    ∀ (fuel : Nat) (c : Commit) (s : State), ∃ seg, Core s (processCommit r fuel c s).state seg := by
  intro fuel
  induction fuel with
  | zero => intro c s; exact ⟨[], Core.id_run s⟩
  | succ fuel ih =>
    intro c s
    by_cases hk : c.id ∈ s.knownCommits
    · rw [processCommit_known r fuel c s hk]
      exact ⟨_, Core.of_emit s _ (by simp) (by simp)⟩
    · rw [processCommit_new r fuel c s hk]
      have h0 := Core.of_emit s [Event.use c.handle] (by simp) (by simp)
      have h1 := h0.seq (Core.insert (s.emit [Event.use c.handle]) c hk)
      obtain ⟨l, hl⟩ := parentLoop_core r (processCommit r fuel) ih c
        (List.range (r.parentCount c.id)) ((s.emit [Event.use c.handle]).insert c)
      cases hres : parentLoop r (processCommit r fuel) c (List.range (r.parentCount c.id))
          ((s.emit [Event.use c.handle]).insert c) with
      | timeout s2 =>
        rw [hres] at hl
        exact ⟨_, h1.seq hl⟩
      | done s2 =>
        rw [hres] at hl
        have hns : c.id ∉ scans l := fun hx =>
          hl.fresh c.id (hl.scans_sub c.id hx) (by simp [State.insert])
        obtain ⟨fin, _, hfin⟩ := (h1.seq hl).finish r c (by simp) (by simpa using hns)
        exact ⟨_, hfin⟩

/-! ## Termination on a finite graph -/

theorem unvisitedCount_eq_card (U K : List Oid) :
    unvisitedCount U K = (U.toFinset \ K.toFinset).card := by
  unfold unvisitedCount
  have hnd : ((U.dedup).filter (fun c => decide (c ∉ K))).Nodup :=
    List.Nodup.filter _ (List.nodup_dedup U)
  rw [← List.toFinset_card_of_nodup hnd]
  congr 1
  ext x
  simp [List.mem_filter]

theorem unvisitedCount_mono (U : List Oid) {K K' : List Oid} (h : ∀ x ∈ K, x ∈ K') :
    unvisitedCount U K' ≤ unvisitedCount U K := by
  rw [unvisitedCount_eq_card, unvisitedCount_eq_card]
  apply Finset.card_le_card
  intro x hx
  simp only [Finset.mem_sdiff, List.mem_toFinset] at hx ⊢
  exact ⟨hx.1, fun hk => hx.2 (h x hk)⟩

theorem unvisitedCount_cons_lt (U : List Oid) {K : List Oid} {c : Oid} (hU : c ∈ U)
    (hK : c ∉ K) : unvisitedCount U (c :: K) < unvisitedCount U K := by
  rw [unvisitedCount_eq_card, unvisitedCount_eq_card]
  apply Finset.card_lt_card
  rw [Finset.ssubset_iff_of_subset]
  · exact ⟨c, by simp [hU, hK], by simp⟩
  · intro x hx
    simp only [Finset.mem_sdiff, List.mem_toFinset, List.mem_cons, not_or] at hx ⊢
    exact ⟨hx.1, hx.2.2⟩

theorem unvisitedCount_le_length (U K : List Oid) : unvisitedCount U K ≤ U.length := by
  unfold unvisitedCount
  exact le_trans (List.length_filter_le _ _) (List.Sublist.length_le (List.dedup_sublist U))

theorem parentLoop_terminates (r : Repo) (U : List Oid) (n : Nat) (visit : Commit → State → Res)
    (hcore : ∀ c s, ∃ seg, Core s (visit c s).state seg)
    (hv : ∀ (c : Commit) (s : State), c.id ∈ U → unvisitedCount U s.knownCommits < n →
      ∃ s', visit c s = Res.done s')
    (c : Commit) :
    ∀ (is : List Nat) (s : State), (∀ i ∈ is, ∀ p ∈ r.parent c.id i, p ∈ U) →
      unvisitedCount U s.knownCommits < n → ∃ s', parentLoop r visit c is s = Res.done s' := by
  intro is
  induction is with
  | nil => intro s _ _; exact ⟨s, rfl⟩
  | cons i rest ih =>
    intro s hU hn
    have hrest : ∀ j ∈ rest, ∀ p ∈ r.parent c.id j, p ∈ U :=
      fun j hj => hU j (List.mem_cons_of_mem _ hj)
    cases hp : r.parent c.id i with
    | none =>
      rw [parentLoop_none r visit c i rest s hp]
      exact ih _ hrest hn
    | some p =>
      rw [parentLoop_some r visit c i rest s p hp]
      have hpU : p ∈ U := hU i (List.mem_cons_self _ _) p (by rw [hp]; rfl)
      obtain ⟨s2, hs2⟩ := hv ⟨s.nextHandle, p⟩ (s.alloc [Event.use c.handle,
        Event.parentResolve c.id i (some p), Event.acquire s.nextHandle]) hpU hn
      obtain ⟨a, ha⟩ := hcore ⟨s.nextHandle, p⟩ (s.alloc [Event.use c.handle,
        Event.parentResolve c.id i (some p), Event.acquire s.nextHandle])
      rw [hs2] at ha ⊢
      apply ih _ hrest
      refine lt_of_le_of_lt (unvisitedCount_mono U ?_) hn
      intro x hx
      exact ha.known_mono hx

theorem processCommit_terminates (r : Repo) (U : List Oid) (hU : Closed r U) :
    ∀ (fuel : Nat) (c : Commit) (s : State), c.id ∈ U →
      unvisitedCount U s.knownCommits < fuel → ∃ s', processCommit r fuel c s = Res.done s' := by
  intro fuel
  induction fuel with
  | zero => intro c s _ h; exact absurd h (Nat.not_lt_zero _)
  | succ fuel ih =>
    intro c s hc hn
    by_cases hk : c.id ∈ s.knownCommits
    · exact ⟨_, processCommit_known r fuel c s hk⟩
    · rw [processCommit_new r fuel c s hk]
      have hlt : unvisitedCount U ((s.emit [Event.use c.handle]).insert c).knownCommits < fuel :=
        lt_of_lt_of_le (unvisitedCount_cons_lt U hc hk) (Nat.lt_succ_iff.mp hn)
      obtain ⟨s2, hs2⟩ := parentLoop_terminates r U fuel (processCommit r fuel)
        (processCommit_core r fuel) ih c (List.range (r.parentCount c.id))
        ((s.emit [Event.use c.handle]).insert c)
        (fun i hi p hp => hU c.id hc i (List.mem_range.mp hi) p hp) hlt
      rw [hs2]
      exact ⟨_, rfl⟩

/-! ## Finished runs: which commits are visited and scanned -/

theorem processCommit_done_new (r : Repo) (fuel : Nat) (c : Commit) (s s' : State)
    (hk : c.id ∉ s.knownCommits) (h : processCommit r (fuel + 1) c s = Res.done s') :
    ∃ s2, parentLoop r (processCommit r fuel) c (List.range (r.parentCount c.id))
        ((s.emit [Event.use c.handle]).insert c) = Res.done s2 ∧ s' = scanCommit r c s2 := by
  rw [processCommit_new r fuel c s hk] at h
  cases hres : parentLoop r (processCommit r fuel) c (List.range (r.parentCount c.id))
      ((s.emit [Event.use c.handle]).insert c) with
  | timeout s2 => rw [hres] at h; cases h
  | done s2 =>
    rw [hres] at h
    exact ⟨s2, rfl, by injection h with h; exact h.symm⟩

theorem parentLoop_some_done (r : Repo) (visit : Commit → State → Res) (c : Commit) (i : Nat)
    (rest : List Nat) (s s' : State) (p : Oid) (hp : r.parent c.id i = some p)
    (h : parentLoop r visit c (i :: rest) s = Res.done s') :
    ∃ s2, visit ⟨s.nextHandle, p⟩ (s.alloc [Event.use c.handle,
        Event.parentResolve c.id i (some p), Event.acquire s.nextHandle]) = Res.done s2 ∧
      parentLoop r visit c rest (s2.emit [Event.release s.nextHandle]) = Res.done s' := by
  rw [parentLoop_some r visit c i rest s p hp] at h
  cases hres : visit ⟨s.nextHandle, p⟩ (s.alloc [Event.use c.handle,
      Event.parentResolve c.id i (some p), Event.acquire s.nextHandle]) with
  | timeout s2 => rw [hres] at h; cases h
  | done s2 =>
    rw [hres] at h
    exact ⟨s2, rfl, h⟩

theorem parentAttempts_append (m : Oid) (a b : List Event) :
    parentAttempts m (a ++ b) = parentAttempts m a ++ parentAttempts m b := by
  simp [parentAttempts, List.filterMap_append]

theorem mem_parentAttempts {m : Oid} {t : List Event} {i : Nat} {res : Option Oid} :
    (i, res) ∈ parentAttempts m t ↔ Event.parentResolve m i res ∈ t := by
  induction t with
  | nil => simp [parentAttempts]
  | cons e t ih =>
    have hc : parentAttempts m (e :: t) = parentAttempts m [e] ++ parentAttempts m t :=
      parentAttempts_append m [e] t
    rw [hc, List.mem_append, ih, List.mem_cons]
    apply or_congr_left
    cases e <;> simp [parentAttempts, List.filterMap_cons]
    rename_i c j q
    by_cases hcm : c = m
    · subst hcm; simp
    · simp [hcm]; intro h; exact absurd h.symm hcm

theorem parentAttempts_of_not_owner {m : Oid} {t : List Event}
    (h : ∀ e ∈ t, e.owner ≠ some m) : parentAttempts m t = [] := by
  induction t with
  | nil => rfl
  | cons e t ih =>
    have he := h e (List.mem_cons_self _ _)
    have ht := ih (fun e' he' => h e' (List.mem_cons_of_mem _ he'))
    cases e <;> simp_all [parentAttempts, Event.owner, List.filterMap_cons]

theorem parentAttempts_of_walk {m : Oid} {t : List Event} (h : ∀ e ∈ t, e.isWalk = true) :
    parentAttempts m t = [] := by
  apply parentAttempts_of_not_owner
  intro e he
  have := h e he
  cases e <;> simp [Event.isWalk] at this <;> simp [Event.owner]

theorem IsFin.owner {r : Repo} {c : Commit} {nh : Nat} {fin : List Event}
    (h : IsFin r c nh fin) : ∀ e ∈ fin, ∀ y, e.owner = some y → y = c.id := by
  intro e he y hy
  rcases h with ⟨_, hfin⟩ | ⟨t, w, _, hw, hfin⟩
  · rw [hfin] at he
    simp only [List.mem_cons, List.mem_singleton, List.not_mem_nil, or_false] at he
    rcases he with he | he <;> rw [he] at hy <;> simp [Event.owner] at hy
    exact hy.symm
  · rw [hfin] at he
    simp only [List.mem_append, List.mem_cons, List.mem_singleton, List.not_mem_nil,
      or_false] at he
    rcases he with (he | he) | he
    · rcases he with he | he | he | he | he | he <;> rw [he] at hy <;>
        simp [Event.owner] at hy <;> exact hy.symm
    · have := hw e he
      cases e <;> simp [Event.isWalk] at this <;> simp [Event.owner] at hy
    · rcases he with he | he <;> rw [he] at hy <;> simp [Event.owner] at hy
      exact hy.symm

theorem parentLoop_visit (r : Repo) (visit : Commit → State → Res)
    (hv : ∀ c s s', visit c s = Res.done s' → ∃ seg, Visit r c.id s s' seg) (c : Commit) :
    ∀ (is : List Nat) (s s' : State), parentLoop r visit c is s = Res.done s' →
      ∃ seg, LoopVisit r c.id is s s' seg := by
  intro is
  induction is with
  | nil =>
    intro s s' h
    rw [parentLoop_nil] at h
    injection h with h
    subst h
    exact ⟨[], Core.id_run s, by simp, by simp, by simp, by simp, by simp,
      fun _ => by simp [parentAttempts]⟩
  | cons i rest ih =>
    intro s s' h
    cases hp : r.parent c.id i with
    | none =>
      rw [parentLoop_none r visit c i rest s hp] at h
      obtain ⟨b, hb⟩ := ih _ _ h
      have h0 := Core.of_emit s [Event.use c.handle, Event.parentResolve c.id i none]
        (by simp) (by simp)
      refine ⟨_, h0.seq hb.core, ?_, ?_, ?_, ?_, ?_, ?_⟩
      · intro j hj q hq
        rcases List.mem_cons.mp hj with hj | hj
        · rw [hj, hp] at hq; cases hq
        · exact hb.mem j hj q hq
      · intro y hy
        obtain ⟨j, hj, q, hq, hr⟩ := hb.sound y (by simpa using hy)
        exact ⟨j, List.mem_cons_of_mem _ hj, q, hq, hr⟩
      · intro y hy
        exact hb.closed y (by simpa using hy)
      · intro y
        simpa using hb.scanned y
      · intro e he y hy
        simp only [List.mem_append, List.mem_cons, List.mem_singleton, List.not_mem_nil,
          or_false] at he
        rcases he with (he | he) | he
        · rw [he] at hy; simp [Event.owner] at hy
        · rw [he] at hy; simp [Event.owner] at hy; exact Or.inl hy.symm
        · rcases hb.owned e he y hy with h' | h'
          · exact Or.inl h'
          · exact Or.inr (by simpa using h')
      · intro hk
        rw [parentAttempts_append, hb.attempts hk]
        simp [parentAttempts, hp]
    | some p =>
      obtain ⟨s2, hs2, hrest⟩ := parentLoop_some_done r visit c i rest s s' p hp h
      obtain ⟨a, ha⟩ := hv _ _ _ hs2
      obtain ⟨b, hb⟩ := ih _ _ hrest
      have h0 := Core.of_alloc s [Event.use c.handle, Event.parentResolve c.id i (some p),
        Event.acquire s.nextHandle] (by simp) (by simp)
      have h1 := Core.of_emit s2 [Event.release s.nextHandle] (by simp) (by simp)
      have hcb := h1.seq hb.core
      refine ⟨_, (h0.seq ha.core).seq hcb, ?_, ?_, ?_, ?_, ?_, ?_⟩
      · intro j hj q hq
        rcases List.mem_cons.mp hj with hj | hj
        · rw [hj, hp] at hq
          cases hq
          exact hcb.known_mono ha.mem
        · exact hb.mem j hj q hq
      · intro y hy
        simp only [enters_append, enters_cons, enters_nil, List.append_nil, List.nil_append,
          List.mem_append] at hy
        rcases hy with hy | hy
        · exact ⟨i, List.mem_cons_self _ _, p, by rw [hp]; rfl, ha.sound y hy⟩
        · obtain ⟨j, hj, q, hq, hr⟩ := hb.sound y hy
          exact ⟨j, List.mem_cons_of_mem _ hj, q, hq, hr⟩
      · intro y hy
        simp only [enters_append, enters_cons, enters_nil, List.append_nil, List.nil_append,
          List.mem_append] at hy
        rcases hy with hy | hy
        · exact fun q hq => hcb.known_mono (ha.closed y hy q hq)
        · exact hb.closed y hy
      · intro y
        simp only [enters_append, enters_cons, enters_nil, scans_append, scans_cons, scans_nil,
          List.append_nil, List.nil_append, List.mem_append, ha.scanned y, hb.scanned y]
        tauto
      · intro e he y hy
        simp only [List.mem_append, List.mem_cons, List.mem_singleton, List.not_mem_nil,
          or_false] at he
        rcases he with ((he | he | he) | he) | he | he
        · rw [he] at hy; simp [Event.owner] at hy
        · rw [he] at hy; simp [Event.owner] at hy; exact Or.inl hy.symm
        · rw [he] at hy; simp [Event.owner] at hy
        · exact Or.inr (by simp [ha.owned e he y hy])
        · rw [he] at hy; simp [Event.owner] at hy
        · rcases hb.owned e he y hy with h' | h'
          · exact Or.inl h'
          · exact Or.inr (by simp [h'])
      · intro hk
        have hka : parentAttempts c.id a = [] :=
          parentAttempts_of_not_owner (fun e he hown =>
            ha.core.fresh c.id (ha.owned e he c.id hown) hk)
        rw [parentAttempts_append, parentAttempts_append, parentAttempts_append, hka,
          hb.attempts (ha.core.known_mono hk)]
        simp [parentAttempts, hp]

theorem processCommit_visit (r : Repo) :
    ∀ (fuel : Nat) (c : Commit) (s s' : State), processCommit r fuel c s = Res.done s' →
      ∃ seg, Visit r c.id s s' seg := by
  intro fuel
  induction fuel with
  | zero => intro c s s' h; cases h
  | succ fuel ih =>
    intro c s s' h
    by_cases hk : c.id ∈ s.knownCommits
    · rw [processCommit_known r fuel c s hk] at h
      injection h with h
      subst h
      exact ⟨_, Core.of_emit s _ (by simp) (by simp), hk, by simp, by simp, by simp,
        by simp [Event.owner]⟩
    · obtain ⟨s2, hloop, hs'⟩ := processCommit_done_new r fuel c s s' hk h
      subst hs'
      obtain ⟨l, hl⟩ := parentLoop_visit r (processCommit r fuel) ih c _ _ _ hloop
      have h0 := Core.of_emit s [Event.use c.handle] (by simp) (by simp)
      have h1 := (h0.seq (Core.insert (s.emit [Event.use c.handle]) c hk)).seq hl.core
      have hns : c.id ∉ scans l := fun hx =>
        hl.core.fresh c.id (hl.core.scans_sub c.id hx) (by simp [State.insert])
      obtain ⟨fin, hfin, hcore⟩ := h1.finish r c (by simp) (by simpa using hns)
      have hkn : (scanCommit r c s2).knownCommits = s2.knownCommits := by
        obtain ⟨_, _, _, hk2, _⟩ := scanCommit_trace r c s2
        exact hk2
      refine ⟨_, hcore, ?_, ?_, ?_, ?_, ?_⟩
      · rw [hkn]
        exact hl.core.known_mono (by simp [State.insert])
      · intro x hx
        simp only [enters_append, enters_cons, enters_nil, List.append_nil, List.nil_append,
          List.mem_append, List.mem_singleton, hfin.enters, List.not_mem_nil, or_false] at hx
        rcases hx with hx | hx
        · rw [hx]; exact Relation.ReflTransGen.refl
        · obtain ⟨j, hj, q, hq, hr⟩ := hl.sound x hx
          exact Relation.ReflTransGen.head ⟨j, List.mem_range.mp hj, hq⟩ hr
      · intro x hx
        simp only [enters_append, enters_cons, enters_nil, List.append_nil, List.nil_append,
          List.mem_append, List.mem_singleton, hfin.enters, List.not_mem_nil, or_false] at hx
        rw [hkn]
        rcases hx with hx | hx
        · intro q ⟨j, hj, hq⟩
          rw [hx] at hq
          exact hl.mem j (List.mem_range.mpr (hx ▸ hj)) q hq
        · exact hl.closed x hx
      · intro x
        simp only [enters_append, enters_cons, enters_nil, scans_append, scans_cons, scans_nil,
          List.append_nil, List.nil_append, List.mem_append, List.mem_singleton, hfin.enters,
          hfin.scans, List.not_mem_nil, or_false, hl.scanned x]
        by_cases hx : x = c.id
        · subst hx
          cases ht : (r.tree c.id).isSome <;> simp [ht]
        · have : x ∉ (if (r.tree c.id).isSome = true then [c.id] else []) := by
            split <;> simp [hx]
          simp [this, hx]
      · intro e he y hy
        simp only [enters_append, enters_cons, enters_nil, List.append_nil, List.nil_append,
          List.mem_append, List.mem_singleton, hfin.enters, List.not_mem_nil, or_false]
        simp only [List.mem_append, List.mem_cons, List.mem_singleton, List.not_mem_nil,
          or_false] at he
        rcases he with ((he | he | he) | he) | he
        · rw [he] at hy; simp [Event.owner] at hy
        · rw [he] at hy; simp [Event.owner] at hy
        · rw [he] at hy; simp [Event.owner] at hy
        · exact (hl.owned e he y hy).imp id id
        · exact Or.inl (hfin.owner e he y hy)

/-! ## Ancestors are scanned first -/

theorem Ordered_append (P : Event → List Event → Prop) (a b : List Event) :
    ∀ acc, Ordered P acc (a ++ b) ↔ Ordered P acc a ∧ Ordered P (acc ++ a) b := by
  induction a with
  | nil => intro acc; simp [Ordered]
  | cons e a ih =>
    intro acc
    show P e acc ∧ Ordered P (acc ++ [e]) (a ++ b) ↔
      (P e acc ∧ Ordered P (acc ++ [e]) a) ∧ Ordered P (acc ++ e :: a) b
    rw [ih, and_assoc, List.append_assoc, List.singleton_append]

theorem Ordered_split {P : Event → List Event → Prop} {acc pre post : List Event} {e : Event}
    (h : Ordered P acc (pre ++ e :: post)) : P e (acc ++ pre) := by
  rw [Ordered_append] at h
  exact h.2.1

theorem Ordered_of_forall {P : Event → List Event → Prop} {w : List Event}
    (h : ∀ e ∈ w, ∀ pre, P e pre) : ∀ acc, Ordered P acc w := by
  induction w with
  | nil => intro acc; trivial
  | cons e w ih =>
    intro acc
    exact ⟨h e (List.mem_cons_self _ _) acc,
      ih (fun e' he' => h e' (List.mem_cons_of_mem _ he')) _⟩

theorem Ord_of_walk (r : Repo) {e : Event} (h : e.isWalk = true) (pre : List Event) :
    Ord r e pre := by
  cases e <;> simp [Event.isWalk] at h <;> simp [Ord]

theorem TInv.black_reach {r : Repo} {cur : List Event} {K : List Oid} (h : TInv r cur K)
    {b a : Oid} (hb : Event.scanEnd b ∈ cur) (hr : Reach r b a) : Event.scanEnd a ∈ cur := by
  induction hr with
  | refl => exact hb
  | tail _ hp ih => exact h.black _ ih _ hp

theorem TInv.extend {r : Repo} {cur evs : List Event} {K K' : List Oid} (h : TInv r cur K)
    (hK : ∀ x ∈ K, x ∈ K')
    (ho : Ordered (Ord r) cur evs)
    (hb : ∀ b, Event.scanEnd b ∈ evs → ∀ p, Parent r b p → Event.scanEnd p ∈ cur ++ evs)
    (hk : ∀ p, Event.enter p ∈ evs → p ∈ K') : TInv r (cur ++ evs) K' := by
  refine ⟨?_, ?_, ?_⟩
  · rw [Ordered_append]
    exact ⟨h.ordered, by simpa using ho⟩
  · intro b hbm p hp
    rcases List.mem_append.mp hbm with hbm | hbm
    · exact List.mem_append_left _ (h.black b hbm p hp)
    · exact hb b hbm p hp
  · intro p hp
    rcases List.mem_append.mp hp with hp | hp
    · exact hK p (h.known p hp)
    · exact hk p hp

theorem cycle_of_gray {r : Repo} {U : List Oid} (hA : Acyclic r U) {x p : Oid} (hx : x ∈ U)
    (hp : Parent r x p) (hr : Reach r p x) : False :=
  hA x hx (Relation.TransGen.head' hp hr)

theorem parentLoop_order (r : Repo) (U : List Oid) (hA : Acyclic r U)
    (visit : Commit → State → Res)
    (hm : ∀ c s s', visit c s = Res.done s' → c.id ∈ s'.knownCommits)
    (hv : ∀ c s s', visit c s = Res.done s' → c.id ∈ U → ∃ seg, Core s s' seg ∧
      ∀ cur, TInv r cur s.knownCommits →
        (∀ g ∈ s.knownCommits, Event.scanEnd g ∉ cur → Reach r g c.id) →
        TPost r (cur ++ seg) s.knownCommits s'.knownCommits)
    (x : Commit) (hx : x.id ∈ U)
    (hUx : ∀ i < r.parentCount x.id, ∀ p ∈ r.parent x.id i, p ∈ U) :
    ∀ (is : List Nat) (s s' : State), (∀ i ∈ is, i < r.parentCount x.id) →
      parentLoop r visit x is s = Res.done s' →
      ∃ seg, Core s s' seg ∧ ∀ cur, TInv r cur s.knownCommits →
        (∀ g ∈ s.knownCommits, Event.scanEnd g ∉ cur → Reach r g x.id) →
        TPost r (cur ++ seg) s.knownCommits s'.knownCommits ∧
        ∀ i ∈ is, ∀ p ∈ r.parent x.id i, Event.scanEnd p ∈ cur ++ seg := by
  intro is
  induction is with
  | nil =>
    intro s s' _ h
    rw [parentLoop_nil] at h
    injection h with h
    subst h
    refine ⟨[], Core.id_run s, ?_⟩
    intro cur hinv _
    refine ⟨⟨by simpa using hinv, fun g hg => Or.inl hg⟩, by simp⟩
  | cons i rest ih =>
    intro s s' his h
    have hi : i < r.parentCount x.id := his i (List.mem_cons_self _ _)
    have hrest : ∀ j ∈ rest, j < r.parentCount x.id :=
      fun j hj => his j (List.mem_cons_of_mem _ hj)
    cases hp : r.parent x.id i with
    | none =>
      rw [parentLoop_none r visit x i rest s hp] at h
      obtain ⟨b, hcb, hpb⟩ := ih _ _ hrest h
      have h0 := Core.of_emit s [Event.use x.handle, Event.parentResolve x.id i none]
        (by simp) (by simp)
      refine ⟨_, h0.seq hcb, ?_⟩
      intro cur hinv hgray
      have hinv1 : TInv r (cur ++ [Event.use x.handle, Event.parentResolve x.id i none])
          s.knownCommits :=
        hinv.extend (fun _ h => h) (by simp [Ordered, Ord]) (by simp) (by simp)
      obtain ⟨hpost, hblack⟩ := hpb _ hinv1
        (fun g hg hn => hgray g hg (fun hc => hn (List.mem_append_left _ hc)))
      have e1 : cur ++ ([Event.use x.handle, Event.parentResolve x.id i none] ++ b) =
          cur ++ [Event.use x.handle, Event.parentResolve x.id i none] ++ b := by simp
      rw [e1]
      refine ⟨⟨hpost.inv, ?_⟩, ?_⟩
      · intro g hg
        exact hpost.gray g hg
      · intro j hj q hq
        rcases List.mem_cons.mp hj with hj | hj
        · rw [hj, hp] at hq; cases hq
        · exact hblack j hj q hq
    | some p =>
      obtain ⟨s2, hs2, hloop⟩ := parentLoop_some_done r visit x i rest s s' p hp h
      have hpar : Parent r x.id p := ⟨i, hi, hp⟩
      have hpU : p ∈ U := hUx i hi p (by rw [hp]; rfl)
      obtain ⟨a, hca, hpa⟩ := hv _ _ _ hs2 hpU
      obtain ⟨b, hcb, hpb⟩ := ih _ _ hrest hloop
      have h0 := Core.of_alloc s [Event.use x.handle, Event.parentResolve x.id i (some p),
        Event.acquire s.nextHandle] (by simp) (by simp)
      have h1 := Core.of_emit s2 [Event.release s.nextHandle] (by simp) (by simp)
      refine ⟨_, (h0.seq hca).seq (h1.seq hcb), ?_⟩
      intro cur hinv hgray
      -- a gray identifier cannot be the parent `p`
      have hblackp : ∀ tr : List Event, (∀ e, e ∈ cur → e ∈ tr) → p ∈ s.knownCommits →
          Event.scanEnd p ∈ tr := by
        intro tr htr hpk
        by_contra hn
        exact cycle_of_gray hA hx hpar (hgray p hpk (fun hc => hn (htr _ hc)))
      have hinv1 : TInv r (cur ++ [Event.use x.handle, Event.parentResolve x.id i (some p),
          Event.acquire s.nextHandle]) s.knownCommits := by
        refine hinv.extend (fun _ h => h) ?_ (by simp) (by simp)
        simp only [Ordered, Ord, and_true]
        refine ⟨by simp, ⟨by simp, ?_, by simp⟩, by simp⟩
        intro x' i' p' he hent
        injection he with _ _ he
        injection he with he
        subst he
        have hent' : Event.enter p ∈ cur := by simpa using hent
        exact hblackp _ (fun e he => List.mem_append_left _ he) (hinv.known p hent')
      have hpost1 := hpa _ hinv1 (fun g hg hn =>
        (hgray g hg (fun hc => hn (List.mem_append_left _ hc))).tail hpar)
      have hpblack : Event.scanEnd p ∈ cur ++ [Event.use x.handle,
          Event.parentResolve x.id i (some p), Event.acquire s.nextHandle] ++ a := by
        rcases hpost1.gray p (hm _ _ _ hs2) with hk | hk
        · exact hblackp _ (fun e he => by simp [he]) hk
        · exact hk
      have hinv2 : TInv r (cur ++ [Event.use x.handle, Event.parentResolve x.id i (some p),
          Event.acquire s.nextHandle] ++ a ++ [Event.release s.nextHandle])
          s2.knownCommits :=
        hpost1.inv.extend (fun _ h => h) (by simp [Ordered, Ord]) (by simp) (by simp)
      obtain ⟨hpost2, hblack⟩ := hpb _ hinv2 (by
        intro g hg hn
        rcases hpost1.gray g hg with hk | hk
        · exact hgray g hk (fun hc => hn (by simp [hc]))
        · exact absurd (List.mem_append_left _ hk) hn)
      have e1 : cur ++ ([Event.use x.handle, Event.parentResolve x.id i (some p),
          Event.acquire s.nextHandle] ++ a ++ ([Event.release s.nextHandle] ++ b)) =
          cur ++ [Event.use x.handle, Event.parentResolve x.id i (some p),
          Event.acquire s.nextHandle] ++ a ++ [Event.release s.nextHandle] ++ b := by simp
      rw [e1]
      refine ⟨⟨hpost2.inv, ?_⟩, ?_⟩
      · intro g hg
        rcases hpost2.gray g hg with hk | hk
        · rcases hpost1.gray g hk with hk' | hk'
          · exact Or.inl hk'
          · exact Or.inr (by
              rw [List.append_assoc _ [Event.release s.nextHandle] b]
              exact List.mem_append_left _ hk')
        · exact Or.inr hk
      · intro j hj q hq
        rcases List.mem_cons.mp hj with hj | hj
        · rw [hj, hp] at hq
          cases hq
          rw [List.append_assoc _ [Event.release s.nextHandle] b]
          exact List.mem_append_left _ hpblack
        · exact hblack j hj q hq

theorem scanCommit_known (r : Repo) (c : Commit) (s : State) :
    (scanCommit r c s).knownCommits = s.knownCommits := by
  obtain ⟨_, _, _, hk, _⟩ := scanCommit_trace r c s
  exact hk

theorem processCommit_mem_known (r : Repo) (fuel : Nat) (c : Commit) (s s' : State)
    (h : processCommit r fuel c s = Res.done s') : c.id ∈ s'.knownCommits := by
  obtain ⟨_, hv⟩ := processCommit_visit r fuel c s s' h
  exact hv.mem

theorem processCommit_order (r : Repo) (U : List Oid) (hU : Closed r U)
    (hT : TreesResolve r U) (hA : Acyclic r U) :
    ∀ (fuel : Nat) (c : Commit) (s s' : State), processCommit r fuel c s = Res.done s' →
      c.id ∈ U → ∃ seg, Core s s' seg ∧ ∀ cur, TInv r cur s.knownCommits →
        (∀ g ∈ s.knownCommits, Event.scanEnd g ∉ cur → Reach r g c.id) →
        TPost r (cur ++ seg) s.knownCommits s'.knownCommits := by
  intro fuel
  induction fuel with
  | zero => intro c s s' h; cases h
  | succ fuel ih =>
    intro c s s' h hc
    by_cases hk : c.id ∈ s.knownCommits
    · rw [processCommit_known r fuel c s hk] at h
      injection h with h
      subst h
      refine ⟨_, Core.of_emit s _ (by simp) (by simp), ?_⟩
      intro cur hinv _
      exact ⟨hinv.extend (fun _ h => h) (by simp [Ordered, Ord]) (by simp) (by simp),
        fun g hg => Or.inl hg⟩
    · obtain ⟨s2, hloop, hs'⟩ := processCommit_done_new r fuel c s s' hk h
      subst hs'
      obtain ⟨l, hcl, hpl⟩ := parentLoop_order r U hA (processCommit r fuel)
        (processCommit_mem_known r fuel) ih c hc (hU c.id hc)
        (List.range (r.parentCount c.id)) _ _ (fun i hi => List.mem_range.mp hi) hloop
      have h0 := Core.of_emit s [Event.use c.handle] (by simp) (by simp)
      have h1 := (h0.seq (Core.insert (s.emit [Event.use c.handle]) c hk)).seq hcl
      have hns : c.id ∉ scans l := fun hx =>
        hcl.fresh c.id (hcl.scans_sub c.id hx) (by simp [State.insert])
      obtain ⟨fin, hfin, hcore⟩ := h1.finish r c (by simp) (by simpa using hns)
      refine ⟨_, hcore, ?_⟩
      intro cur hinv hgray
      rw [scanCommit_known]
      have hinv1 : TInv r (cur ++ ([Event.use c.handle] ++
          [Event.enter c.id, Event.use c.handle])) (c.id :: s.knownCommits) :=
        hinv.extend (fun _ h => List.mem_cons_of_mem _ h) (by simp [Ordered, Ord]) (by simp)
          (by simp)
      obtain ⟨hpost, hblack⟩ := hpl _ hinv1 (by
        intro g hg hn
        rcases List.mem_cons.mp hg with hg | hg
        · rw [hg]; exact Relation.ReflTransGen.refl
        · exact hgray g hg (fun hcur => hn (List.mem_append_left _ hcur)))
      have hparents : ∀ p, Parent r c.id p → Event.scanEnd p ∈
          cur ++ ([Event.use c.handle] ++ [Event.enter c.id, Event.use c.handle]) ++ l := by
        intro p ⟨j, hj, hq⟩
        exact hblack j (List.mem_range.mpr hj) p hq
      have hatt : ∀ i < r.parentCount c.id, Event.parentResolve c.id i (r.parent c.id i) ∈
          cur ++ ([Event.use c.handle] ++ [Event.enter c.id, Event.use c.handle]) ++ l := by
        intro i hi
        obtain ⟨l', hl'⟩ := parentLoop_visit r (processCommit r fuel)
          (processCommit_visit r fuel) c _ _ _ hloop
        have hll : l' = l := hl'.core.seg_unique hcl
        have hat := hl'.attempts (by simp [State.insert])
        rw [hll] at hat
        have hmem : (i, r.parent c.id i) ∈ parentAttempts c.id l := by
          rw [hat]
          exact List.mem_map.mpr ⟨i, List.mem_range.mpr hi, rfl⟩
        exact List.mem_append_right _ (mem_parentAttempts.mp hmem)
      have hanc : ∀ a, Anc r c.id a → Event.scanEnd a ∈
          cur ++ ([Event.use c.handle] ++ [Event.enter c.id, Event.use c.handle]) ++ l := by
        intro a ha
        obtain ⟨p, hp, hr⟩ := Relation.TransGen.head'_iff.mp ha
        exact hpost.inv.black_reach (hparents p hp) hr
      have e1 : cur ++ ([Event.use c.handle] ++ [Event.enter c.id, Event.use c.handle] ++ l
          ++ fin) = cur ++ ([Event.use c.handle] ++ [Event.enter c.id, Event.use c.handle])
          ++ l ++ fin := by simp
      rw [e1]
      rcases hfin with ⟨ht, _⟩ | ⟨t, w, _, hw, hfin⟩
      · have := hT c.id hc
        rw [ht] at this
        cases this
      · have hend : Event.scanEnd c.id ∈ fin := by rw [hfin]; simp
        have hends : ∀ b, Event.scanEnd b ∈ fin → b = c.id := by
          intro b hb
          rw [hfin] at hb
          simp only [List.mem_append, List.mem_cons, List.mem_singleton, List.not_mem_nil,
            or_false] at hb
          rcases hb with (hb | hb) | hb
          · rcases hb with hb | hb | hb | hb | hb | hb <;> cases hb
          · have := hw _ hb
            simp [Event.isWalk] at this
          · rcases hb with hb | hb
            · injection hb
            · cases hb
        refine ⟨hpost.inv.extend (fun _ h => h) ?_ ?_ ?_, ?_⟩
        · rw [hfin, Ordered_append, Ordered_append]
          refine ⟨⟨?_, Ordered_of_forall (fun e he pre => Ord_of_walk r (hw e he) pre) _⟩, ?_⟩
          · simp only [Ordered, Ord, and_true]
            refine ⟨by simp, by simp, by simp, ⟨?_, by simp, ?_⟩, by simp, by simp⟩
            · intro x hx a ha
              injection hx with hx
              subst hx
              have := hanc a ha
              simp only [List.mem_append] at this ⊢
              tauto
            · intro x hx i hi
              injection hx with hx
              subst hx
              have := hatt i hi
              simp only [List.mem_append] at this ⊢
              tauto
          · simp [Ordered, Ord]
        · intro b hb p hp
          rw [hends b hb] at hp
          exact List.mem_append_left _ (hparents p hp)
        · intro p hp
          rw [hfin] at hp
          simp only [List.mem_append, List.mem_cons, List.mem_singleton, List.not_mem_nil,
            or_false] at hp
          rcases hp with (hp | hp) | hp
          · rcases hp with hp | hp | hp | hp | hp | hp <;> cases hp
          · have := hw _ hp
            simp [Event.isWalk] at this
          · rcases hp with hp | hp <;> cases hp
        · intro g hg
          rcases hpost.gray g hg with hk' | hk'
          · rcases List.mem_cons.mp hk' with hk' | hk'
            · rw [hk']; exact Or.inr (List.mem_append_right _ hend)
            · exact Or.inl hk'
          · exact Or.inr (List.mem_append_left _ hk')

/-! ## Whole traversals -/

theorem reach_mem_closed {r : Repo} {U : List Oid} (hU : Closed r U) {c x : Oid} (hc : c ∈ U)
    (h : Reach r c x) : x ∈ U := by
  induction h with
  | refl => exact hc
  | tail _ hp ih =>
    obtain ⟨i, hi, hq⟩ := hp
    exact hU _ ih i hi _ hq

theorem anc_mem_closed {r : Repo} {U : List Oid} (hU : Closed r U) {c x : Oid} (hc : c ∈ U)
    (h : Anc r c x) : x ∈ U :=
  reach_mem_closed hU hc (Relation.TransGen.to_reflTransGen h)

/-- A rank that drops along every parent link of `U` excludes cycles. -/
theorem acyclic_of_rank {r : Repo} {U : List Oid} (hU : Closed r U) (rank : Oid → Nat)
    (h : ∀ c ∈ U, ∀ i < r.parentCount c, ∀ p ∈ r.parent c i, rank p < rank c) :
    Acyclic r U := by
  have key : ∀ c ∈ U, ∀ a, Anc r c a → rank a < rank c := by
    intro c hc a ha
    induction ha with
    | single hp =>
      obtain ⟨i, hi, hq⟩ := hp
      exact h c hc i hi _ hq
    | tail hab hp ih =>
      obtain ⟨i, hi, hq⟩ := hp
      exact lt_trans (h _ (anc_mem_closed hU hc hab) i hi _ hq) ih
  intro c hc hcc
  exact lt_irrefl _ (key c hc c hcc)

theorem traversal_visit (r : Repo) (U : List Oid) (hU : Closed r U) (c : Commit)
    (hc : c.id ∈ U) (s : State) (fuel : Nat) (hf : unvisitedCount U s.knownCommits < fuel) :
    ∃ s' seg, processCommit r fuel c s = Res.done s' ∧ Visit r c.id s s' seg := by
  obtain ⟨s', hs'⟩ := processCommit_terminates r U hU fuel c s hc hf
  obtain ⟨seg, hv⟩ := processCommit_visit r fuel c s s' hs'
  exact ⟨s', seg, hs', hv⟩

theorem Visit.enters_iff {r : Repo} {c : Oid} {s s' : State} {seg : List Event}
    (hv : Visit r c s s' seg) (hs : s.knownCommits = []) (x : Oid) :
    x ∈ enters seg ↔ Reach r c x := by
  have hk : ∀ y, y ∈ s'.knownCommits ↔ y ∈ enters seg := by
    intro y; rw [hv.core.mem_known, hs]; simp
  constructor
  · exact hv.sound x
  · intro h
    rw [← hk]
    induction h with
    | refl => exact hv.mem
    | tail _ hp ih => exact hv.closed _ ((hk _).mp ih) _ hp

theorem Visit.count_scans {r : Repo} {c : Oid} {s s' : State} {seg : List Event}
    (hv : Visit r c s s' seg) (hs : s.knownCommits = []) (x : Oid) :
    (Reach r c x → (r.tree x).isSome = true → (scans seg).count x = 1) ∧
    (¬ (Reach r c x ∧ (r.tree x).isSome = true) → (scans seg).count x = 0) := by
  constructor
  · intro hr ht
    exact List.count_eq_one_of_mem hv.core.scans_nodup
      ((hv.scanned x).mpr ⟨(hv.enters_iff hs x).mpr hr, ht⟩)
  · intro hn
    apply List.count_eq_zero_of_not_mem
    intro hx
    obtain ⟨he, ht⟩ := (hv.scanned x).mp hx
    exact hn ⟨(hv.enters_iff hs x).mp he, ht⟩

theorem runAll_core (r : Repo) (fuel : Nat) :
    ∀ (calls : List Commit) (s : State), ∃ seg, Core s (runAll r fuel calls s).state seg := by
  intro calls
  induction calls with
  | nil => intro s; exact ⟨[], Core.id_run s⟩
  | cons c cs ih =>
    intro s
    obtain ⟨a, ha⟩ := processCommit_core r fuel c s
    unfold runAll
    cases hres : processCommit r fuel c s with
    | timeout s2 =>
      rw [hres] at ha
      exact ⟨a, ha⟩
    | done s2 =>
      rw [hres] at ha
      obtain ⟨b, hb⟩ := ih s2
      exact ⟨_, ha.seq hb⟩

/-- The parts of a finished call that got past the membership test. -/
theorem processCommit_frame (r : Repo) (fuel : Nat) (c : Commit) (s s' : State)
    (hk : c.id ∉ s.knownCommits) (h : processCommit r (fuel + 1) c s = Res.done s') :
    ∃ s2 l fin, LoopVisit r c.id (List.range (r.parentCount c.id))
        ((s.emit [Event.use c.handle]).insert c) s2 l ∧
      IsFin r c s2.nextHandle fin ∧ s' = scanCommit r c s2 ∧
      Core s s' ([Event.use c.handle] ++ [Event.enter c.id, Event.use c.handle] ++ l ++ fin) ∧
      c.id ∉ scans l := by
  obtain ⟨s2, hloop, hs'⟩ := processCommit_done_new r fuel c s s' hk h
  subst hs'
  obtain ⟨l, hl⟩ := parentLoop_visit r (processCommit r fuel) (processCommit_visit r fuel)
    c _ _ _ hloop
  have h0 := Core.of_emit s [Event.use c.handle] (by simp) (by simp)
  have h1 := (h0.seq (Core.insert (s.emit [Event.use c.handle]) c hk)).seq hl.core
  have hns : c.id ∉ scans l := fun hx =>
    hl.core.fresh c.id (hl.core.scans_sub c.id hx) (by simp [State.insert])
  obtain ⟨fin, hfin, hcore⟩ := h1.finish r c (by simp) (by simpa using hns)
  exact ⟨s2, l, fin, hl, hfin, rfl, hcore, hns⟩

/-! ## The tree scan -/

@[simp] theorem blameAttempts_nil : blameAttempts [] = [] := rfl

@[simp] theorem blameAttempts_append (a b : List Event) :
    blameAttempts (a ++ b) = blameAttempts a ++ blameAttempts b := by
  simp [blameAttempts, List.filterMap_append]

theorem blameAttempts_replicate_use (n h : Nat) :
    blameAttempts (List.replicate n (Event.use h)) = [] := by
  induction n with
  | zero => rfl
  | succ n ih =>
    rw [List.replicate_succ]
    have : blameAttempts (Event.use h :: List.replicate n (Event.use h)) =
        blameAttempts [Event.use h] ++ blameAttempts (List.replicate n (Event.use h)) :=
      blameAttempts_append [Event.use h] _
    rw [this, ih]
    rfl

theorem callback_blames (r : Repo) (c : Commit) (root : String) (ty : EntryType)
    (name : String) (s : State) :
    blameAttempts (treeMetricsCallback r c root ty name s).1.trace =
      blameAttempts s.trace ++
        (if ty = EntryType.blob then [(root ++ name, c.id)] else []) := by
  by_cases hty : ty = EntryType.blob
  · subst hty
    cases hb : r.blame c.id (root ++ name) with
    | none =>
      rw [callback_fail r c root name s hb]
      simp [State.emit, blameAttempts]
    | some n =>
      rw [callback_ok r c root name s n hb]
      simp only [State.alloc, blameAttempts_append, blameAttempts_replicate_use]
      simp [blameAttempts]
  · rw [callback_other r c root ty name s hty]
    simp [hty]

theorem treeWalk_blames (r : Repo) (c : Commit) (t : Tree) :
    ∀ (root : String) (s : State),
      blameAttempts (treeWalk (treeMetricsCallback r c) root t s).1.trace =
        blameAttempts s.trace ++ expectedBlames c.id root t := by
  induction t with
  | nil => intro root s; simp [treeWalk, expectedBlames, Tree.entries]
  | blob name rest ih =>
    intro root s
    have hrc := callback_rc r c root EntryType.blob name s
    have hb := callback_blames r c root EntryType.blob name s
    simp only [treeWalk, hrc, lt_self_iff_false, if_false]
    rw [ih, hb]
    simp [expectedBlames, Tree.entries]
  | link name rest ih =>
    intro root s
    have hrc := callback_rc r c root EntryType.commit name s
    have hb := callback_blames r c root EntryType.commit name s
    simp only [treeWalk, hrc, lt_self_iff_false, if_false]
    rw [ih, hb]
    simp [expectedBlames, Tree.entries]
  | dir name sub rest ihs ihr =>
    intro root s
    have hrc := callback_rc r c root EntryType.tree name s
    have hb := callback_blames r c root EntryType.tree name s
    have h0 := (treeWalk_step r c sub (root ++ name ++ "/")
      (treeMetricsCallback r c root EntryType.tree name s).1).1
    simp only [treeWalk, hrc, lt_self_iff_false, if_false, h0, ne_eq, not_true_eq_false]
    rw [ihr, ihs, hb]
    simp [expectedBlames, Tree.entries, List.filterMap_append]

/-! ## The scan order is the depth-first post-order -/

theorem dfsParents_cons_some {v : Oid → List Oid → Option (List Oid × List Oid)}
    {p : Oid} {ps vis vis1 o1 vis2 o2 : List Oid} (h1 : v p vis = some (vis1, o1))
    (h2 : dfsParents v ps vis1 = some (vis2, o2)) :
    dfsParents v (p :: ps) vis = some (vis2, o1 ++ o2) := by
  simp [dfsParents, h1, h2]

theorem dfsParents_cons_inv {v : Oid → List Oid → Option (List Oid × List Oid)}
    {p : Oid} {ps vis : List Oid} {res : List Oid × List Oid}
    (h : dfsParents v (p :: ps) vis = some res) :
    ∃ vis1 o1 vis2 o2, v p vis = some (vis1, o1) ∧
      dfsParents v ps vis1 = some (vis2, o2) ∧ res = (vis2, o1 ++ o2) := by
  cases h1 : v p vis with
  | none => simp [dfsParents, h1] at h
  | some r1 =>
    obtain ⟨vis1, o1⟩ := r1
    cases h2 : dfsParents v ps vis1 with
    | none => simp [dfsParents, h1, h2] at h
    | some r2 =>
      obtain ⟨vis2, o2⟩ := r2
      simp only [dfsParents, h1, h2, Option.some.injEq] at h
      exact ⟨vis1, o1, vis2, o2, rfl, h2, h.symm⟩

theorem dfsParents_mono (v v' : Oid → List Oid → Option (List Oid × List Oid))
    (h : ∀ c vis res, v c vis = some res → v' c vis = some res) :
    ∀ (ps : List Oid) (vis : List Oid) (res : List Oid × List Oid),
      dfsParents v ps vis = some res → dfsParents v' ps vis = some res := by
  intro ps
  induction ps with
  | nil => intro vis res hres; exact hres
  | cons p ps ih =>
    intro vis res hres
    obtain ⟨vis1, o1, vis2, o2, h1, h2, hr⟩ := dfsParents_cons_inv hres
    rw [hr]
    exact dfsParents_cons_some (h _ _ _ h1) (ih _ _ h2)

theorem dfsPostOrder_known (parents : Oid → List Oid) (fuel : Nat) (c : Oid) (vis : List Oid)
    (hc : c ∈ vis) : dfsPostOrder parents (fuel + 1) c vis = some (vis, []) := by
  simp [dfsPostOrder, hc]

theorem dfsPostOrder_new (parents : Oid → List Oid) (fuel : Nat) (c : Oid)
    (vis vis' order : List Oid) (hc : c ∉ vis)
    (h : dfsParents (dfsPostOrder parents fuel) (parents c) (c :: vis) = some (vis', order)) :
    dfsPostOrder parents (fuel + 1) c vis = some (vis', order ++ [c]) := by
  simp [dfsPostOrder, hc, h]

theorem dfsPostOrder_new_inv (parents : Oid → List Oid) (fuel : Nat) (c : Oid)
    (vis : List Oid) (res : List Oid × List Oid) (hc : c ∉ vis)
    (h : dfsPostOrder parents (fuel + 1) c vis = some res) :
    ∃ vis' order, dfsParents (dfsPostOrder parents fuel) (parents c) (c :: vis) =
      some (vis', order) ∧ res = (vis', order ++ [c]) := by
  cases h1 : dfsParents (dfsPostOrder parents fuel) (parents c) (c :: vis) with
  | none => simp [dfsPostOrder, hc, h1] at h
  | some r1 =>
    obtain ⟨vis', order⟩ := r1
    simp only [dfsPostOrder, hc, if_false, h1, Option.some.injEq] at h
    exact ⟨vis', order, rfl, h.symm⟩

theorem dfsPostOrder_succ (parents : Oid → List Oid) :
    ∀ (fuel : Nat) (c : Oid) (vis : List Oid) (res : List Oid × List Oid),
      dfsPostOrder parents fuel c vis = some res →
      dfsPostOrder parents (fuel + 1) c vis = some res := by
  intro fuel
  induction fuel with
  | zero => intro c vis res h; cases h
  | succ fuel ih =>
    intro c vis res h
    by_cases hc : c ∈ vis
    · rw [dfsPostOrder_known parents fuel c vis hc] at h
      rw [dfsPostOrder_known parents (fuel + 1) c vis hc]
      exact h
    · obtain ⟨vis', order, h1, hr⟩ := dfsPostOrder_new_inv parents fuel c vis res hc h
      rw [hr]
      exact dfsPostOrder_new parents (fuel + 1) c vis vis' order hc
        (dfsParents_mono _ _ ih _ _ _ h1)

theorem dfsPostOrder_le (parents : Oid → List Oid) {f f' : Nat} (hle : f ≤ f') (c : Oid)
    (vis : List Oid) (res : List Oid × List Oid) (h : dfsPostOrder parents f c vis = some res) :
    dfsPostOrder parents f' c vis = some res := by
  induction hle with
  | refl => exact h
  | step _ ih => exact dfsPostOrder_succ parents _ c vis res ih

theorem parentLoop_dfs (r : Repo) (U : List Oid) (visit : Commit → State → Res)
    (dvisit : Oid → List Oid → Option (List Oid × List Oid))
    (hv : ∀ c s s', visit c s = Res.done s' → c.id ∈ U → ∃ seg, Core s s' seg ∧
      dvisit c.id s.knownCommits = some (s'.knownCommits, scans seg))
    (x : Commit) (hUx : ∀ i < r.parentCount x.id, ∀ p ∈ r.parent x.id i, p ∈ U) :
    ∀ (is : List Nat) (s s' : State), (∀ i ∈ is, i < r.parentCount x.id) →
      parentLoop r visit x is s = Res.done s' →
      ∃ seg, Core s s' seg ∧
        dfsParents dvisit (is.filterMap (r.parent x.id)) s.knownCommits =
          some (s'.knownCommits, scans seg) := by
  intro is
  induction is with
  | nil =>
    intro s s' _ h
    rw [parentLoop_nil] at h
    injection h with h
    subst h
    exact ⟨[], Core.id_run s, rfl⟩
  | cons i rest ih =>
    intro s s' his h
    have hi : i < r.parentCount x.id := his i (List.mem_cons_self _ _)
    have hrest : ∀ j ∈ rest, j < r.parentCount x.id :=
      fun j hj => his j (List.mem_cons_of_mem _ hj)
    cases hp : r.parent x.id i with
    | none =>
      rw [parentLoop_none r visit x i rest s hp] at h
      obtain ⟨b, hcb, hdb⟩ := ih _ _ hrest h
      refine ⟨_, (Core.of_emit s [Event.use x.handle, Event.parentResolve x.id i none]
        (by simp) (by simp)).seq hcb, ?_⟩
      rw [List.filterMap_cons_none hp]
      simpa using hdb
    | some p =>
      obtain ⟨s2, hs2, hloop⟩ := parentLoop_some_done r visit x i rest s s' p hp h
      obtain ⟨a, hca, hda⟩ := hv _ _ _ hs2 (hUx i hi p (by rw [hp]; rfl))
      obtain ⟨b, hcb, hdb⟩ := ih _ _ hrest hloop
      have h0 := Core.of_alloc s [Event.use x.handle, Event.parentResolve x.id i (some p),
        Event.acquire s.nextHandle] (by simp) (by simp)
      have h1 := Core.of_emit s2 [Event.release s.nextHandle] (by simp) (by simp)
      refine ⟨_, (h0.seq hca).seq (h1.seq hcb), ?_⟩
      rw [List.filterMap_cons_some hp]
      have hda' : dvisit p s.knownCommits = some (s2.knownCommits, scans a) := hda
      have hdb' : dfsParents dvisit (List.filterMap (r.parent x.id) rest) s2.knownCommits =
          some (s'.knownCommits, scans b) := hdb
      rw [dfsParents_cons_some hda' hdb']
      simp

theorem processCommit_dfs (r : Repo) (U : List Oid) (hU : Closed r U) (hT : TreesResolve r U) :
    ∀ (fuel : Nat) (c : Commit) (s s' : State), processCommit r fuel c s = Res.done s' →
      c.id ∈ U → ∃ seg, Core s s' seg ∧
        dfsPostOrder r.parents fuel c.id s.knownCommits = some (s'.knownCommits, scans seg) := by
  intro fuel
  induction fuel with
  | zero => intro c s s' h; cases h
  | succ fuel ih =>
    intro c s s' h hc
    by_cases hk : c.id ∈ s.knownCommits
    · rw [processCommit_known r fuel c s hk] at h
      injection h with h
      subst h
      refine ⟨_, Core.of_emit s _ (by simp) (by simp), ?_⟩
      rw [dfsPostOrder_known r.parents fuel c.id s.knownCommits hk]
      simp [State.emit]
    · obtain ⟨s2, hloop, hs'⟩ := processCommit_done_new r fuel c s s' hk h
      subst hs'
      obtain ⟨l, hcl, hdl⟩ := parentLoop_dfs r U (processCommit r fuel)
        (dfsPostOrder r.parents fuel) ih c (hU c.id hc)
        (List.range (r.parentCount c.id)) _ _ (fun i hi => List.mem_range.mp hi) hloop
      have h0 := Core.of_emit s [Event.use c.handle] (by simp) (by simp)
      have h1 := (h0.seq (Core.insert (s.emit [Event.use c.handle]) c hk)).seq hcl
      have hns : c.id ∉ scans l := fun hx =>
        hcl.fresh c.id (hcl.scans_sub c.id hx) (by simp [State.insert])
      obtain ⟨fin, hfin, hcore⟩ := h1.finish r c (by simp) (by simpa using hns)
      refine ⟨_, hcore, ?_⟩
      have hdl' : dfsParents (dfsPostOrder r.parents fuel) (r.parents c.id)
          (c.id :: s.knownCommits) = some (s2.knownCommits, scans l) := hdl
      have hsc : scans fin = [c.id] := by
        rw [hfin.scans, hT c.id hc]; rfl
      rw [dfsPostOrder_new r.parents fuel c.id s.knownCommits _ _ hk hdl', scanCommit_known]
      simp [hsc]

/-! ## Handles -/

theorem handleCheck_cons (e : Event) (t : List Event) (st : List Nat × List Nat) :
    handleCheck (e :: t) st = (handleStep st e).bind (handleCheck t) := by
  show (match handleStep st e with
    | none => none
    | some st' => handleCheck t st') = _
  cases handleStep st e <;> rfl

theorem handleCheck_append (a b : List Event) :
    ∀ st, handleCheck (a ++ b) st = (handleCheck a st).bind (handleCheck b) := by
  induction a with
  | nil => intro st; rfl
  | cons e a ih =>
    intro st
    rw [List.cons_append, handleCheck_cons, handleCheck_cons]
    cases handleStep st e with
    | none => rfl
    | some st' => exact ih st'

theorem handleCheck_acquire (h : Nat) (live dead : List Nat) (hl : h ∉ live) (hd : h ∉ dead) :
    handleCheck [Event.acquire h] (live, dead) = some (h :: live, dead) := by
  simp [handleCheck, handleStep, hl, hd]

theorem handleCheck_release (h : Nat) (live dead : List Nat) :
    handleCheck [Event.release h] (h :: live, dead) = some (live, h :: dead) := by
  simp [handleCheck, handleStep]

theorem handleCheck_replicate_use (n h : Nat) (live dead : List Nat) (hl : h ∈ live) :
    handleCheck (List.replicate n (Event.use h)) (live, dead) = some (live, dead) := by
  induction n with
  | zero => rfl
  | succ n ih =>
    rw [List.replicate_succ]
    simp [handleCheck, handleStep, hl, ih]

theorem Balanced.empty_bal : Balanced [] := ⟨rfl, rfl⟩

theorem Balanced.join {a b : List Event} (ha : Balanced a) (hb : Balanced b) :
    Balanced (a ++ b) := by
  unfold Balanced at *
  simp only [List.countP_append]
  omega

theorem HSafe.empty (own : Nat) (s : State) : HSafe own s s [] :=
  fun _ dead _ _ hd => ⟨dead, rfl, hd⟩

theorem HSafe.seq_safe {own : Nat} {s s1 s2 : State} {a b : List Event}
    (h1 : HSafe own s s1 a) (hle : s.nextHandle ≤ s1.nextHandle) (h2 : HSafe own s1 s2 b) :
    HSafe own s s2 (a ++ b) := by
  intro live dead ho hl hd
  obtain ⟨d1, hc1, hd1⟩ := h1 live dead ho hl hd
  obtain ⟨d2, hc2, hd2⟩ := h2 live d1 ho (fun h hh => lt_of_lt_of_le (hl h hh) hle) hd1
  exact ⟨d2, by rw [handleCheck_append, hc1]; exact hc2, hd2⟩

/-- Events that read only the held handle `own`, in a state change that keeps
the handle counter. -/
theorem HSafe.read_only {own : Nat} {s s' : State} {evs : List Event}
    (hh : s.nextHandle ≤ s'.nextHandle)
    (hc : ∀ live dead, own ∈ live → handleCheck evs (live, dead) = some (live, dead)) :
    HSafe own s s' evs :=
  fun live dead ho _ hd =>
    ⟨dead, hc live dead ho, fun h hm => lt_of_lt_of_le (hd h hm) hh⟩

/-- A resolution that hands out the next handle, the code `mid` that runs
while it is held, and its release. -/
theorem HSafe.bracket {own : Nat} {s s' : State} {pre mid post : List Event} (s1 : State)
    (hpre : ∀ live dead, own ∈ live →
      handleCheck pre (live, dead) = some (live, dead))
    (hmid : ∀ live dead, own ∈ live → s.nextHandle ∈ live →
      (∀ h ∈ live, h < s.nextHandle + 1) → (∀ h ∈ dead, h < s.nextHandle + 1) →
      ∃ dead', handleCheck mid (live, dead) = some (live, dead') ∧
        ∀ h ∈ dead', h < s1.nextHandle)
    (hpost : ∀ live dead, own ∈ live →
      handleCheck post (live, dead) = some (live, dead))
    (h1 : s.nextHandle + 1 ≤ s1.nextHandle) (h2 : s1.nextHandle ≤ s'.nextHandle) :
    HSafe own s s'
      (pre ++ [Event.acquire s.nextHandle] ++ mid ++ [Event.release s.nextHandle] ++ post) := by
  intro live dead ho hl hd
  have hnl : s.nextHandle ∉ live := fun hm => lt_irrefl _ (hl _ hm)
  have hnd : s.nextHandle ∉ dead := fun hm => lt_irrefl _ (hd _ hm)
  obtain ⟨d1, hc1, hd1⟩ := hmid (s.nextHandle :: live) dead (List.mem_cons_of_mem _ ho)
    (List.mem_cons_self _ _)
    (fun h hh => by
      rcases List.mem_cons.mp hh with hh | hh
      · rw [hh]; exact Nat.lt_succ_self _
      · exact Nat.lt_succ_of_lt (hl h hh))
    (fun h hh => Nat.lt_succ_of_lt (hd h hh))
  refine ⟨s.nextHandle :: d1, ?_, ?_⟩
  · rw [handleCheck_append, handleCheck_append, handleCheck_append, handleCheck_append,
      hpre live dead ho, Option.some_bind, handleCheck_acquire _ _ _ hnl hnd, Option.some_bind,
      hc1, Option.some_bind, handleCheck_release, Option.some_bind]
    exact hpost live _ ho
  · intro h hh
    rcases List.mem_cons.mp hh with hh | hh
    · rw [hh]; exact lt_of_lt_of_le (Nat.lt_succ_self _) (le_trans h1 h2)
    · exact lt_of_lt_of_le (hd1 h hh) h2

theorem callback_safe (r : Repo) (c : Commit) (root : String) (ty : EntryType) (name : String)
    (s : State) :
    ∃ seg, WalkStep s (treeMetricsCallback r c root ty name s).1 seg ∧
      HSafe c.handle s (treeMetricsCallback r c root ty name s).1 seg ∧ Balanced seg := by
  by_cases hty : ty = EntryType.blob
  · subst hty
    cases hb : r.blame c.id (root ++ name) with
    | none =>
      rw [callback_fail r c root name s hb]
      refine ⟨_, WalkStep.emit_walk s _ (by simp [Event.isWalk]), ?_, ?_⟩
      · exact HSafe.read_only (le_refl _) (fun live dead ho => by
          simp [handleCheck, handleStep, ho])
      · simp [Balanced, List.countP_cons, Event.isAcquire, Event.isSuccess, Event.isRelease]
    | some n =>
      rw [callback_ok r c root name s n hb]
      obtain ⟨seg, hw⟩ := callback_step r c root EntryType.blob name s
      rw [callback_ok r c root name s n hb] at hw
      have hseg : seg = [Event.use c.handle, Event.blameAttempt (root ++ name) c.id true,
          Event.acquire s.nextHandle, Event.use s.nextHandle]
          ++ List.replicate n (Event.use s.nextHandle) ++ [Event.release s.nextHandle] :=
        (List.append_cancel_left (hw.trace_eq.symm.trans rfl)).symm ▸ rfl
      subst hseg
      refine ⟨_, hw, ?_, ?_⟩
      · have e : [Event.use c.handle, Event.blameAttempt (root ++ name) c.id true,
            Event.acquire s.nextHandle, Event.use s.nextHandle]
            ++ List.replicate n (Event.use s.nextHandle) ++ [Event.release s.nextHandle] =
            [Event.use c.handle, Event.blameAttempt (root ++ name) c.id true] ++
            [Event.acquire s.nextHandle] ++
            (Event.use s.nextHandle :: List.replicate n (Event.use s.nextHandle)) ++
            [Event.release s.nextHandle] ++ [] := by simp
        rw [e]
        refine HSafe.bracket (s.alloc _) ?_ ?_ ?_ (le_refl _) (le_refl _)
        · intro live dead ho
          simp [handleCheck, handleStep, ho]
        · intro live dead _ hb' _ hd
          refine ⟨dead, ?_, hd⟩
          rw [← List.replicate_succ]
          exact handleCheck_replicate_use _ _ _ _ hb'
        · intro live dead _
          rfl
      · simp [Balanced, List.countP_cons, List.countP_append, List.countP_replicate,
          Event.isAcquire, Event.isSuccess, Event.isRelease]
  · rw [callback_other r c root ty name s hty]
    exact ⟨[], WalkStep.id_walk s, HSafe.empty _ s, Balanced.empty_bal⟩

theorem treeWalk_safe (r : Repo) (c : Commit) (t : Tree) :
    ∀ (root : String) (s : State),
      ∃ seg, WalkStep s (treeWalk (treeMetricsCallback r c) root t s).1 seg ∧
        HSafe c.handle s (treeWalk (treeMetricsCallback r c) root t s).1 seg ∧
        Balanced seg := by
  induction t with
  | nil => intro root s; exact ⟨[], WalkStep.id_walk s, HSafe.empty _ s, Balanced.empty_bal⟩
  | blob name rest ih =>
    intro root s
    obtain ⟨a, ha, hsa, hba⟩ := callback_safe r c root EntryType.blob name s
    have hrc := callback_rc r c root EntryType.blob name s
    obtain ⟨b, hb, hsb, hbb⟩ := ih root (treeMetricsCallback r c root EntryType.blob name s).1
    simp only [treeWalk, hrc, lt_self_iff_false, if_false]
    exact ⟨a ++ b, ha.seq_walk hb, hsa.seq_safe ha.handle_le hsb, hba.join hbb⟩
  | link name rest ih =>
    intro root s
    obtain ⟨a, ha, hsa, hba⟩ := callback_safe r c root EntryType.commit name s
    have hrc := callback_rc r c root EntryType.commit name s
    obtain ⟨b, hb, hsb, hbb⟩ := ih root (treeMetricsCallback r c root EntryType.commit name s).1
    simp only [treeWalk, hrc, lt_self_iff_false, if_false]
    exact ⟨a ++ b, ha.seq_walk hb, hsa.seq_safe ha.handle_le hsb, hba.join hbb⟩
  | dir name sub rest ihs ihr =>
    intro root s
    obtain ⟨a, ha, hsa, hba⟩ := callback_safe r c root EntryType.tree name s
    have hrc := callback_rc r c root EntryType.tree name s
    have h0 := (treeWalk_step r c sub (root ++ name ++ "/")
      (treeMetricsCallback r c root EntryType.tree name s).1).1
    obtain ⟨b, hb, hsb, hbb⟩ := ihs (root ++ name ++ "/")
      (treeMetricsCallback r c root EntryType.tree name s).1
    obtain ⟨d, hd, hsd, hbd⟩ := ihr root
      (treeWalk (treeMetricsCallback r c) (root ++ name ++ "/") sub
        (treeMetricsCallback r c root EntryType.tree name s).1).1
    simp only [treeWalk, hrc, lt_self_iff_false, if_false, h0, ne_eq, not_true_eq_false]
    exact ⟨a ++ (b ++ d), ha.seq_walk (hb.seq_walk hd),
      hsa.seq_safe ha.handle_le (hsb.seq_safe hb.handle_le hsd), hba.join (hbb.join hbd)⟩

theorem scanCommit_safe (r : Repo) (c : Commit) (s : State) :
    ∃ fin, (scanCommit r c s).trace = s.trace ++ fin ∧
      HSafe c.handle s (scanCommit r c s) fin ∧ Balanced fin := by
  unfold scanCommit
  cases ht : r.tree c.id with
  | none =>
    refine ⟨_, rfl, HSafe.read_only (le_refl _) (fun live dead ho => by
      simp [handleCheck, handleStep, ho]), ?_⟩
    simp [Balanced, List.countP_cons, Event.isAcquire, Event.isSuccess, Event.isRelease]
  | some t =>
    obtain ⟨w, hw, hsw, hbw⟩ := treeWalk_safe r c t ""
      (s.alloc [Event.use c.handle, Event.treeResolve c.id true,
        Event.acquire s.nextHandle, Event.scanBegin c.id, Event.use c.handle,
        Event.use s.nextHandle])
    refine ⟨[Event.use c.handle, Event.treeResolve c.id true] ++ [Event.acquire s.nextHandle]
      ++ ([Event.scanBegin c.id, Event.use c.handle, Event.use s.nextHandle] ++ w ++
        [Event.scanEnd c.id]) ++ [Event.release s.nextHandle] ++ [], ?_, ?_, ?_⟩
    · dsimp only
      rw [hw.trace_eq]
      simp [State.alloc]
    · refine HSafe.bracket ((treeWalk (treeMetricsCallback r c) "" t
        (s.alloc [Event.use c.handle, Event.treeResolve c.id true,
          Event.acquire s.nextHandle, Event.scanBegin c.id, Event.use c.handle,
          Event.use s.nextHandle])).1) ?_ ?_ ?_ hw.handle_le (le_refl _)
      · intro live dead ho
        simp [handleCheck, handleStep, ho]
      · intro live dead ho hth hl hd
        obtain ⟨d1, hc1, hd1⟩ := hsw live dead ho hl hd
        refine ⟨d1, ?_, hd1⟩
        rw [handleCheck_append, handleCheck_append]
        have e1 : handleCheck [Event.scanBegin c.id, Event.use c.handle,
            Event.use s.nextHandle] (live, dead) = some (live, dead) := by
          simp [handleCheck, handleStep, ho, hth]
        rw [e1, Option.some_bind, hc1, Option.some_bind]
        rfl
      · intro live dead _
        rfl
    · have hbw1 := hbw.1
      have hbw2 := hbw.2
      simp only [Balanced, List.countP_cons, List.countP_append, List.countP_nil,
        Event.isAcquire, Event.isSuccess, Event.isRelease]
      simp
      omega

theorem parentLoop_safe (r : Repo) (visit : Commit → State → Res)
    (hv : ∀ c s s', visit c s = Res.done s' →
      ∃ seg, Core s s' seg ∧ HSafe c.handle s s' seg ∧ Balanced seg) (x : Commit) :
    ∀ (is : List Nat) (s s' : State), parentLoop r visit x is s = Res.done s' →
      ∃ seg, Core s s' seg ∧ HSafe x.handle s s' seg ∧ Balanced seg := by
  intro is
  induction is with
  | nil =>
    intro s s' h
    rw [parentLoop_nil] at h
    injection h with h
    subst h
    exact ⟨[], Core.id_run s, HSafe.empty _ s, Balanced.empty_bal⟩
  | cons i rest ih =>
    intro s s' h
    cases hp : r.parent x.id i with
    | none =>
      rw [parentLoop_none r visit x i rest s hp] at h
      obtain ⟨b, hcb, hsb, hbb⟩ := ih _ _ h
      have h0 := Core.of_emit s [Event.use x.handle, Event.parentResolve x.id i none]
        (by simp) (by simp)
      refine ⟨_, h0.seq hcb, ?_, ?_⟩
      · exact HSafe.seq_safe (HSafe.read_only (le_refl _) (fun live dead ho => by
          simp [handleCheck, handleStep, ho])) (le_refl _) hsb
      · refine Balanced.join ?_ hbb
        simp [Balanced, List.countP_cons, Event.isAcquire, Event.isSuccess, Event.isRelease]
    | some p =>
      obtain ⟨s2, hs2, hloop⟩ := parentLoop_some_done r visit x i rest s s' p hp h
      obtain ⟨a, hca, hsa, hba⟩ := hv _ _ _ hs2
      obtain ⟨b, hcb, hsb, hbb⟩ := ih _ _ hloop
      have h0 := Core.of_alloc s [Event.use x.handle, Event.parentResolve x.id i (some p),
        Event.acquire s.nextHandle] (by simp) (by simp)
      have h1 := Core.of_emit s2 [Event.release s.nextHandle] (by simp) (by simp)
      have e : [Event.use x.handle, Event.parentResolve x.id i (some p),
          Event.acquire s.nextHandle] ++ a ++ ([Event.release s.nextHandle] ++ b) =
          ([Event.use x.handle, Event.parentResolve x.id i (some p)] ++
            [Event.acquire s.nextHandle] ++ a ++ [Event.release s.nextHandle] ++ []) ++ b := by
        simp
      refine ⟨_, (h0.seq hca).seq (h1.seq hcb), ?_, ?_⟩
      · rw [e]
        have hfirst : HSafe x.handle s (s2.emit [Event.release s.nextHandle])
            ([Event.use x.handle, Event.parentResolve x.id i (some p)] ++
              [Event.acquire s.nextHandle] ++ a ++ [Event.release s.nextHandle] ++ []) := by
          refine HSafe.bracket s2 ?_ ?_ ?_ hca.handle_le (le_refl _)
          · intro live dead ho
            simp [handleCheck, handleStep, ho]
          · intro live dead _ hh hl hd
            exact hsa live dead hh hl hd
          · intro live dead _
            rfl
        exact hfirst.seq_safe (le_trans (Nat.le_succ _) hca.handle_le) hsb
      · rw [e]
        refine Balanced.join ?_ hbb
        have hba1 := hba.1
        have hba2 := hba.2
        simp only [Balanced, List.countP_cons, List.countP_append, List.countP_nil,
          Event.isAcquire, Event.isSuccess, Event.isRelease]
        simp
        omega

theorem processCommit_safe (r : Repo) :
    ∀ (fuel : Nat) (c : Commit) (s s' : State), processCommit r fuel c s = Res.done s' →
      ∃ seg, Core s s' seg ∧ HSafe c.handle s s' seg ∧ Balanced seg := by
  intro fuel
  induction fuel with
  | zero => intro c s s' h; cases h
  | succ fuel ih =>
    intro c s s' h
    by_cases hk : c.id ∈ s.knownCommits
    · rw [processCommit_known r fuel c s hk] at h
      injection h with h
      subst h
      refine ⟨_, Core.of_emit s _ (by simp) (by simp), ?_, ?_⟩
      · exact HSafe.read_only (le_refl _) (fun live dead ho => by
          simp [handleCheck, handleStep, ho])
      · simp [Balanced, List.countP_cons, Event.isAcquire, Event.isSuccess, Event.isRelease]
    · obtain ⟨s2, hloop, hs'⟩ := processCommit_done_new r fuel c s s' hk h
      subst hs'
      obtain ⟨l, hcl, hsl, hbl⟩ := parentLoop_safe r (processCommit r fuel) ih c _ _ _ hloop
      have h0 := Core.of_emit s [Event.use c.handle] (by simp) (by simp)
      have h1 := (h0.seq (Core.insert (s.emit [Event.use c.handle]) c hk)).seq hcl
      have hns : c.id ∉ scans l := fun hx =>
        hcl.fresh c.id (hcl.scans_sub c.id hx) (by simp [State.insert])
      obtain ⟨fin, _, hcore⟩ := h1.finish r c (by simp) (by simpa using hns)
      obtain ⟨fin', htr, hsf, hbf⟩ := scanCommit_safe r c s2
      have hfin : fin' = fin := by
        have := hcore.trace_eq
        rw [htr, hcl.trace_eq] at this
        simp only [State.insert, State.emit, List.append_assoc] at this
        have h2 := List.append_cancel_left this
        simp only [List.cons_append, List.nil_append, List.cons.injEq, true_and] at h2
        exact List.append_cancel_left h2
      subst hfin
      refine ⟨_, hcore, ?_, ?_⟩
      · have hpre : HSafe c.handle s ((s.emit [Event.use c.handle]).insert c)
            ([Event.use c.handle] ++ [Event.enter c.id, Event.use c.handle]) :=
          HSafe.read_only (le_refl _) (fun live dead ho => by simp [handleCheck, handleStep, ho])
        exact (hpre.seq_safe (le_refl _) hsl).seq_safe hcl.handle_le hsf
      · refine Balanced.join (Balanced.join ?_ hbl) hbf
        simp [Balanced, List.countP_cons, Event.isAcquire, Event.isSuccess, Event.isRelease]

/-- What an accepted run of the handle monitor says in terms of the trace. -/
theorem handleCheck_facts :
    ∀ (seg : List Event) (live dead live' dead' : List Nat),
      handleCheck seg (live, dead) = some (live', dead') → live.Nodup →
      (∀ h ∈ live, h ∉ dead) →
      live'.Nodup ∧ (∀ h ∈ live', h ∉ dead') ∧
      ∀ h, (seg.count (Event.acquire h) + (if h ∈ live then 1 else 0) =
              seg.count (Event.release h) + (if h ∈ live' then 1 else 0)) ∧
           (seg.count (Event.acquire h) ≤ if h ∈ live ∨ h ∈ dead then 0 else 1) ∧
           (h ∈ live' → h ∈ live ∨ Event.acquire h ∈ seg) ∧
           (h ∈ dead → h ∈ dead') ∧
           (Event.release h ∈ seg → h ∈ dead') := by
  intro seg
  induction seg with
  | nil =>
    intro live dead live' dead' hc hnd hdis
    simp only [handleCheck, Option.some.injEq, Prod.mk.injEq] at hc
    obtain ⟨h1, h2⟩ := hc
    subst h1 h2
    exact ⟨hnd, hdis, fun h => ⟨by simp, by split <;> simp, fun hh => Or.inl hh, id, by simp⟩⟩
  | cons e t ih =>
    intro live dead live' dead' hc hnd hdis
    rw [handleCheck_cons] at hc
    cases hst : handleStep (live, dead) e with
    | none => rw [hst] at hc; cases hc
    | some st1 =>
      obtain ⟨l1, d1⟩ := st1
      rw [hst, Option.some_bind] at hc
      cases e with
      | acquire g =>
        simp only [handleStep] at hst
        split at hst
        · cases hst
        · rename_i hg
          simp only [not_or] at hg
          simp only [Option.some.injEq, Prod.mk.injEq] at hst
          obtain ⟨e1, e2⟩ := hst
          subst e1 e2
          obtain ⟨hn', hd', hall⟩ := ih _ _ _ _ hc (List.nodup_cons.mpr ⟨hg.1, hnd⟩)
            (fun h hh => by
              rcases List.mem_cons.mp hh with hh | hh
              · rw [hh]; exact hg.2
              · exact hdis h hh)
          refine ⟨hn', hd', fun h => ?_⟩
          obtain ⟨a1, a2, a3, a4, a5⟩ := hall h
          by_cases hhg : h = g
          · subst hhg
            simp only [List.mem_cons, true_or, if_true] at a1 a2
            refine ⟨?_, ?_, fun _ => Or.inr (List.mem_cons_self _ _), a4, ?_⟩
            · rw [List.count_cons_self, List.count_cons_of_ne (by simp), if_neg hg.1]
              omega
            · rw [List.count_cons_self, if_neg (by simp [hg.1, hg.2])]
              omega
            · intro hh
              rcases List.mem_cons.mp hh with hh | hh
              · cases hh
              · exact a5 hh
          · have hne : Event.acquire h ≠ Event.acquire g :=
              fun hh => hhg (by injection hh)
            simp only [List.mem_cons, hhg, false_or] at a1 a2 a3
            rw [List.count_cons_of_ne hne, List.count_cons_of_ne (by simp)]
            refine ⟨a1, a2, fun hh => (a3 hh).imp id (fun x => List.mem_cons_of_mem _ x), a4, ?_⟩
            intro hh
            rcases List.mem_cons.mp hh with hh | hh
            · cases hh
            · exact a5 hh
      | release g =>
        simp only [handleStep] at hst
        split at hst
        · rename_i hg
          simp only [Option.some.injEq, Prod.mk.injEq] at hst
          obtain ⟨e1, e2⟩ := hst
          subst e1 e2
          obtain ⟨hn', hd', hall⟩ := ih _ _ _ _ hc (hnd.erase g)
            (fun h hh => by
              have hm := (List.Nodup.mem_erase_iff hnd).mp hh
              intro hdead
              rcases List.mem_cons.mp hdead with hdead | hdead
              · exact hm.1 hdead
              · exact hdis h hm.2 hdead)
          refine ⟨hn', hd', fun h => ?_⟩
          obtain ⟨a1, a2, a3, a4, a5⟩ := hall h
          by_cases hhg : h = g
          · subst hhg
            have hne : h ∉ live.erase h :=
              fun hh => ((List.Nodup.mem_erase_iff hnd).mp hh).1 rfl
            simp only [hne, if_false, List.mem_cons, true_or, or_true, if_true] at a1 a2
            refine ⟨?_, ?_, fun _ => Or.inl hg, fun hh => a4 (List.mem_cons_of_mem _ hh),
              fun _ => a4 (List.mem_cons_self _ _)⟩
            · rw [List.count_cons_self, List.count_cons_of_ne (by simp), if_pos hg]
              omega
            · rw [List.count_cons_of_ne (by simp), if_pos (Or.inl hg)]
              omega
          · have hne : Event.release h ≠ Event.release g :=
              fun hh => hhg (by injection hh)
            have hmem : h ∈ live.erase g ↔ h ∈ live := by
              rw [List.Nodup.mem_erase_iff hnd]; simp [hhg]
            simp only [hmem, List.mem_cons, hhg, false_or] at a1 a2 a3
            rw [List.count_cons_of_ne hne, List.count_cons_of_ne (by simp)]
            refine ⟨a1, a2, fun hh => (a3 hh).imp id (fun x => List.mem_cons_of_mem _ x),
              fun hh => a4 (List.mem_cons_of_mem _ hh), ?_⟩
            intro hh
            rcases List.mem_cons.mp hh with hh | hh
            · exact absurd hh hne
            · exact a5 hh
        · cases hst
      | use g =>
        simp only [handleStep] at hst
        split at hst
        · simp only [Option.some.injEq, Prod.mk.injEq] at hst
          obtain ⟨e1, e2⟩ := hst
          subst e1 e2
          obtain ⟨hn', hd', hall⟩ := ih _ _ _ _ hc hnd hdis
          refine ⟨hn', hd', fun h => ?_⟩
          obtain ⟨a1, a2, a3, a4, a5⟩ := hall h
          rw [List.count_cons_of_ne (by simp), List.count_cons_of_ne (by simp)]
          exact ⟨a1, a2, fun hh => (a3 hh).imp id (fun x => List.mem_cons_of_mem _ x), a4,
            fun hh => a5 (by simpa using hh)⟩
        · cases hst
      | enter _ | parentResolve _ _ _ | treeResolve _ _ | scanBegin _ | blameAttempt _ _ _
      | scanEnd _ =>
        simp only [handleStep, Option.some.injEq, Prod.mk.injEq] at hst
        obtain ⟨e1, e2⟩ := hst
        subst e1 e2
        obtain ⟨hn', hd', hall⟩ := ih _ _ _ _ hc hnd hdis
        refine ⟨hn', hd', fun h => ?_⟩
        obtain ⟨a1, a2, a3, a4, a5⟩ := hall h
        rw [List.count_cons_of_ne (by simp), List.count_cons_of_ne (by simp)]
        exact ⟨a1, a2, fun hh => (a3 hh).imp id (fun x => List.mem_cons_of_mem _ x), a4,
          fun hh => a5 (by simpa using hh)⟩

theorem handleCheck_split {pre post : List Event} {e : Event} {st st' : List Nat × List Nat}
    (h : handleCheck (pre ++ e :: post) st = some st') :
    ∃ st1 st2, handleCheck pre st = some st1 ∧ handleStep st1 e = some st2 ∧
      handleCheck post st2 = some st' := by
  rw [handleCheck_append] at h
  cases h1 : handleCheck pre st with
  | none => rw [h1] at h; cases h
  | some st1 =>
    rw [h1, Option.some_bind, handleCheck_cons] at h
    cases h2 : handleStep st1 e with
    | none => rw [h2] at h; cases h
    | some st2 =>
      rw [h2, Option.some_bind] at h
      exact ⟨st1, st2, rfl, h2, h⟩

/-- An accepted trace that leaves the held handles as they were: each handle
is handed out at most once and released as often as handed out; a handle is
read only before its release, and if not held from the start only after it
was handed out; a handle released was handed out before, in this trace, and
not released before. -/
theorem handleCheck_explicit {seg : List Event} {live dead dead' : List Nat}
    (hc : handleCheck seg (live, dead) = some (live, dead')) (hnd : live.Nodup)
    (hdis : ∀ h ∈ live, h ∉ dead) :
    (∀ h, seg.count (Event.release h) = seg.count (Event.acquire h) ∧
      seg.count (Event.acquire h) ≤ 1) ∧
    (∀ h pre post, seg = pre ++ Event.use h :: post →
      Event.release h ∉ pre ∧ (h ∈ live ∨ Event.acquire h ∈ pre)) ∧
    (∀ h pre post, seg = pre ++ Event.release h :: post →
      Event.acquire h ∈ pre ∧ Event.release h ∉ pre) := by
  obtain ⟨_, _, hall⟩ := handleCheck_facts seg live dead live dead' hc hnd hdis
  have hcount : ∀ h, seg.count (Event.release h) = seg.count (Event.acquire h) ∧
      seg.count (Event.acquire h) ≤ (if h ∈ live ∨ h ∈ dead then 0 else 1) := by
    intro h
    obtain ⟨a1, a2, _⟩ := hall h
    exact ⟨by omega, a2⟩
  refine ⟨fun h => ⟨(hcount h).1, le_trans (hcount h).2 (by split <;> omega)⟩, ?_, ?_⟩
  · intro h pre post hseg
    rw [hseg] at hc
    obtain ⟨⟨l1, d1⟩, st2, h1, h2, _⟩ := handleCheck_split hc
    obtain ⟨_, hd1, hall1⟩ := handleCheck_facts pre live dead l1 d1 h1 hnd hdis
    obtain ⟨_, _, b3, _, b5⟩ := hall1 h
    have hl1 : h ∈ l1 := by
      simp only [handleStep] at h2
      split at h2
      · assumption
      · cases h2
    exact ⟨fun hr => hd1 h hl1 (b5 hr), b3 hl1⟩
  · intro h pre post hseg
    have hc' := hc
    rw [hseg] at hc'
    obtain ⟨⟨l1, d1⟩, st2, h1, h2, _⟩ := handleCheck_split hc'
    obtain ⟨_, hd1, hall1⟩ := handleCheck_facts pre live dead l1 d1 h1 hnd hdis
    obtain ⟨_, _, b3, _, b5⟩ := hall1 h
    have hl1 : h ∈ l1 := by
      simp only [handleStep] at h2
      split at h2
      · assumption
      · cases h2
    refine ⟨?_, fun hr => hd1 h hl1 (b5 hr)⟩
    rcases b3 hl1 with hlive | hacq
    · exfalso
      obtain ⟨c1, c2⟩ := hcount h
      rw [if_pos (Or.inl hlive)] at c2
      have hpos : 0 < seg.count (Event.release h) := by
        rw [List.count_pos_iff, hseg]
        simp
      omega
    · exact hacq

/-! ## The claims -/

/-- C1: on a finite commit graph whose trees all resolve, a traversal started
at a head commit with an empty `knownCommits` finishes, and the scan starts
exactly once for every commit reachable from the head (the head included)
and never for any other commit.  Parent links are the resolving ones, so
with every parent resolution succeeding they are all the links of the
graph; a cycle would not change the count. -/
theorem scan_exactly_once_reachable (r : Repo) (U : List Oid) (hU : Closed r U)
    (hT : TreesResolve r U) (head : Commit) (hh : head.id ∈ U) (s : State)
    (hs : s.knownCommits = []) (fuel : Nat) (hf : U.length < fuel) :
    ∃ s' seg, processCommit r fuel head s = Res.done s' ∧ s'.trace = s.trace ++ seg ∧
      ∀ c, (Reach r head.id c → (scans seg).count c = 1) ∧
           (¬ Reach r head.id c → (scans seg).count c = 0) := by
  obtain ⟨s', seg, hrun, hv⟩ := traversal_visit r U hU head hh s fuel
    (lt_of_le_of_lt (unvisitedCount_le_length U _) hf)
  refine ⟨s', seg, hrun, hv.core.trace_eq, ?_⟩
  intro c
  obtain ⟨h1, h0⟩ := hv.count_scans hs c
  exact ⟨fun hr => h1 hr (hT c (reach_mem_closed hU hh hr)), fun hn => h0 (fun h => hn h.1)⟩

theorem scan_exactly_once_reachable_witness :
    Closed diamondRepo [0, 1, 2, 3] ∧ TreesResolve diamondRepo [0, 1, 2, 3] ∧
    ∃ s' seg, processCommit diamondRepo 5 ⟨0, 3⟩ State.withHead = Res.done s' ∧
      s'.trace = State.withHead.trace ++ seg ∧
      ∀ c, (Reach diamondRepo 3 c → (scans seg).count c = 1) ∧
           (¬ Reach diamondRepo 3 c → (scans seg).count c = 0) :=
  ⟨by decide, by decide,
    scan_exactly_once_reachable diamondRepo [0, 1, 2, 3] (by decide) (by decide) ⟨0, 3⟩
      (by decide) State.withHead rfl 5 (by decide)⟩

/-- C2: on a finite acyclic commit graph whose trees all resolve, in a
traversal started with an empty `knownCommits`, when the scan of a commit `c`
starts every proper ancestor of `c` has completed its scan; and when a frame
resolves a parent `p` that was entered before (so is found in `knownCommits`
by the recursive call), `p` has completed its scan. -/
theorem ancestors_scanned_first (r : Repo) (U : List Oid) (hU : Closed r U)
    (hT : TreesResolve r U) (hA : Acyclic r U) (head : Commit) (hh : head.id ∈ U)
    (s : State) (hs : s.knownCommits = []) (fuel : Nat) (hf : U.length < fuel) :
    ∃ s' seg, processCommit r fuel head s = Res.done s' ∧ s'.trace = s.trace ++ seg ∧
      (∀ pre c post, seg = pre ++ Event.scanBegin c :: post →
        ∀ a, Anc r c a → Event.scanEnd a ∈ pre) ∧
      (∀ pre c i p post, seg = pre ++ Event.parentResolve c i (some p) :: post →
        Event.enter p ∈ pre → Event.scanEnd p ∈ pre) := by
  obtain ⟨s', hrun⟩ := processCommit_terminates r U hU fuel head s hh
    (lt_of_le_of_lt (unvisitedCount_le_length U _) hf)
  obtain ⟨seg, hcore, hpost⟩ := processCommit_order r U hU hT hA fuel head s s' hrun hh
  have hinv := (hpost [] ⟨trivial, by simp, by simp⟩ (by simp [hs])).inv
  refine ⟨s', seg, hrun, hcore.trace_eq, ?_, ?_⟩
  · intro pre c post hseg a ha
    have ho := hinv.ordered
    rw [List.nil_append, hseg] at ho
    have := (Ordered_split ho).1 c rfl a ha
    simpa using this
  · intro pre c i p post hseg he
    have ho := hinv.ordered
    rw [List.nil_append, hseg] at ho
    have := (Ordered_split ho).2.1 c i p rfl (by simpa using he)
    simpa using this

theorem ancestors_scanned_first_witness :
    Closed diamondRepo [0, 1, 2, 3] ∧ TreesResolve diamondRepo [0, 1, 2, 3] ∧
    Acyclic diamondRepo [0, 1, 2, 3] ∧
    ∃ s' seg, processCommit diamondRepo 5 ⟨0, 3⟩ State.withHead = Res.done s' ∧
      s'.trace = State.withHead.trace ++ seg ∧
      (∀ pre c post, seg = pre ++ Event.scanBegin c :: post →
        ∀ a, Anc diamondRepo c a → Event.scanEnd a ∈ pre) ∧
      (∀ pre c i p post, seg = pre ++ Event.parentResolve c i (some p) :: post →
        Event.enter p ∈ pre → Event.scanEnd p ∈ pre) :=
  ⟨by decide, by decide, acyclic_of_rank (by decide) id (by decide),
    ancestors_scanned_first diamondRepo [0, 1, 2, 3] (by decide) (by decide)
      (acyclic_of_rank (by decide) id (by decide)) ⟨0, 3⟩ (by decide) State.withHead rfl 5
      (by decide)⟩

/-- C3: a call of `processCommit` on a commit whose identifier is already in
`knownCommits` returns at once: it only reads the identifier, so no parent
and no tree is resolved, no scan runs, and `knownCommits` and
`processedCount` are unchanged.  And over any sequence of calls, on any
graph and with any failures, finished or cut short, the identifiers that get
past the membership test are pairwise distinct and were not known before. -/
theorem known_commit_is_noop (r : Repo) (fuel : Nat) (hfuel : 0 < fuel) :
    (∀ (c : Commit) (s : State), c.id ∈ s.knownCommits →
      ∃ s', processCommit r fuel c s = Res.done s' ∧
        s'.trace = s.trace ++ [Event.use c.handle] ∧
        s'.knownCommits = s.knownCommits ∧ s'.processedCount = s.processedCount ∧
        s'.nextHandle = s.nextHandle) ∧
    (∀ (calls : List Commit) (s : State), ∃ seg,
      (runAll r fuel calls s).state.trace = s.trace ++ seg ∧ (enters seg).Nodup ∧
        ∀ x ∈ enters seg, x ∉ s.knownCommits) := by
  constructor
  · intro c s hk
    obtain ⟨n, hn⟩ := Nat.exists_eq_succ_of_ne_zero (Nat.pos_iff_ne_zero.mp hfuel)
    subst hn
    exact ⟨_, processCommit_known r n c s hk, rfl, rfl, rfl, rfl⟩
  · intro calls s
    obtain ⟨seg, hc⟩ := runAll_core r fuel calls s
    exact ⟨seg, hc.trace_eq, hc.nodup, hc.fresh⟩

theorem known_commit_is_noop_witness :
    0 < 3 ∧
    (∀ (c : Commit) (s : State), c.id ∈ s.knownCommits →
      ∃ s', processCommit diamondRepo 3 c s = Res.done s' ∧
        s'.trace = s.trace ++ [Event.use c.handle] ∧
        s'.knownCommits = s.knownCommits ∧ s'.processedCount = s.processedCount ∧
        s'.nextHandle = s.nextHandle) ∧
    (∀ (calls : List Commit) (s : State), ∃ seg,
      (runAll diamondRepo 3 calls s).state.trace = s.trace ++ seg ∧ (enters seg).Nodup ∧
        ∀ x ∈ enters seg, x ∉ s.knownCommits) :=
  ⟨by decide, known_commit_is_noop diamondRepo 3 (by decide)⟩

/-- C4: a call of `processCommit` on a commit `m` not yet known, on a finite
graph, calls `git_commit_parent` for every index `0 .. N-1` of `m` in index
order, failed answers included, all before `git_commit_tree` is called on
`m`, and if the tree resolves the scan of `m` starts after that, whatever
the parents answered.  And in a traversal of a finite acyclic graph whose
trees resolve, started with an empty `knownCommits`, for a reachable `m`
with two parents of which index `0` resolves to `p0` and index `1` fails:
both calls were made, and `p0` and every ancestor of `p0` have completed
their scan, when the scan of `m` starts. -/
theorem merge_parents_attempted (r : Repo) (U : List Oid) (hU : Closed r U) :
    (∀ (m : Commit) (s : State) (fuel : Nat), m.id ∈ U → m.id ∉ s.knownCommits →
      unvisitedCount U s.knownCommits < fuel →
      ∃ s' pre post, processCommit r fuel m s = Res.done s' ∧
        s'.trace = s.trace ++
          (pre ++ Event.treeResolve m.id (r.tree m.id).isSome :: post) ∧
        parentAttempts m.id pre =
          (List.range (r.parentCount m.id)).map (fun i => (i, r.parent m.id i)) ∧
        parentAttempts m.id post = [] ∧
        ((r.tree m.id).isSome = true → Event.scanBegin m.id ∈ post)) ∧
    (∀ (head : Commit) (s : State) (fuel : Nat) (m p0 : Oid), TreesResolve r U →
      Acyclic r U → head.id ∈ U → s.knownCommits = [] → U.length < fuel →
      Reach r head.id m → r.parentCount m = 2 → r.parent m 0 = some p0 →
      r.parent m 1 = none →
      ∃ s' pre post, processCommit r fuel head s = Res.done s' ∧
        s'.trace = s.trace ++ (pre ++ Event.scanBegin m :: post) ∧
        Event.parentResolve m 0 (some p0) ∈ pre ∧ Event.parentResolve m 1 none ∈ pre ∧
        (∀ a, Reach r p0 a → Event.scanEnd a ∈ pre)) := by
  constructor
  · intro m s fuel hm hk hf
    obtain ⟨s', hrun⟩ := processCommit_terminates r U hU fuel m s hm hf
    obtain ⟨n, hn⟩ := Nat.exists_eq_succ_of_ne_zero (Nat.not_eq_zero_of_lt hf)
    subst hn
    obtain ⟨s2, l, fin, hl, hfin, _, hcore, _⟩ := processCommit_frame r n m s s' hk hrun
    have hatt := hl.attempts (by simp [State.insert])
    rcases hfin with ⟨ht, hfin⟩ | ⟨t, w, ht, hw, hfin⟩
    · refine ⟨s', [Event.use m.handle] ++ [Event.enter m.id, Event.use m.handle] ++ l ++
        [Event.use m.handle], [], hrun, ?_, ?_, rfl, ?_⟩
      · rw [hcore.trace_eq, hfin, ht]; simp
      · simp only [parentAttempts_append, hatt]
        simp [parentAttempts]
      · rw [ht]; simp
    · refine ⟨s', [Event.use m.handle] ++ [Event.enter m.id, Event.use m.handle] ++ l ++
        [Event.use m.handle], [Event.acquire s2.nextHandle, Event.scanBegin m.id,
          Event.use m.handle, Event.use s2.nextHandle] ++ w ++
          [Event.scanEnd m.id, Event.release s2.nextHandle], hrun, ?_, ?_, ?_, ?_⟩
      · rw [hcore.trace_eq, hfin, ht]; simp
      · simp only [parentAttempts_append, hatt]
        simp [parentAttempts]
      · simp only [parentAttempts_append, parentAttempts_of_walk hw]
        simp [parentAttempts]
      · intro _; simp
  · intro head s fuel m p0 hT hA hh hs hf hr hN h0 h1
    obtain ⟨s', hrun⟩ := processCommit_terminates r U hU fuel head s hh
      (lt_of_le_of_lt (unvisitedCount_le_length U _) hf)
    obtain ⟨seg, hcore, hpost⟩ := processCommit_order r U hU hT hA fuel head s s' hrun hh
    obtain ⟨seg', hv⟩ := processCommit_visit r fuel head s s' hrun
    have hseg : seg' = seg := hv.core.seg_unique hcore
    subst hseg
    have hinv := (hpost [] ⟨trivial, by simp, by simp⟩ (by simp [hs])).inv
    have hmU : m ∈ U := reach_mem_closed hU hh hr
    have hscan : Event.scanBegin m ∈ seg' :=
      mem_scans.mp ((hv.scanned m).mpr ⟨(hv.enters_iff hs m).mpr hr, hT m hmU⟩)
    obtain ⟨pre, post, hsplit⟩ := List.append_of_mem hscan
    have ho := hinv.ordered
    rw [List.nil_append, hsplit] at ho
    obtain ⟨hanc, _, hatt⟩ := Ordered_split ho
    simp only [List.nil_append] at hanc hatt
    refine ⟨s', pre, post, hrun, by rw [hcore.trace_eq, hsplit], ?_, ?_, ?_⟩
    · have := hatt m rfl 0 (by omega)
      rwa [h0] at this
    · have := hatt m rfl 1 (by omega)
      rwa [h1] at this
    · intro a ha
      exact hanc m rfl a (Relation.TransGen.head' ⟨0, by omega, h0⟩ ha)

theorem merge_parents_attempted_witness :
    Closed shallowRepo [0, 1, 3] ∧
    (∃ s' pre post, processCommit shallowRepo 4 ⟨0, 3⟩ State.withHead = Res.done s' ∧
      s'.trace = State.withHead.trace ++ (pre ++ Event.treeResolve 3 true :: post) ∧
      parentAttempts 3 pre = [(0, some 1), (1, none)] ∧ parentAttempts 3 post = [] ∧
      Event.scanBegin 3 ∈ post) ∧
    (∃ s' pre post, processCommit shallowRepo 4 ⟨0, 3⟩ State.withHead = Res.done s' ∧
      s'.trace = State.withHead.trace ++ (pre ++ Event.scanBegin 3 :: post) ∧
      Event.parentResolve 3 0 (some 1) ∈ pre ∧ Event.parentResolve 3 1 none ∈ pre ∧
      (∀ a, Reach shallowRepo 1 a → Event.scanEnd a ∈ pre)) :=
  ⟨by decide,
    match (merge_parents_attempted shallowRepo [0, 1, 3] (by decide)).1 ⟨0, 3⟩ State.withHead 4
      (by decide) (by decide) (by decide) with
    | ⟨s', pre, post, h1, h2, h3, h4, h5⟩ => ⟨s', pre, post, h1, h2, h3, h4, h5 rfl⟩,
    (merge_parents_attempted shallowRepo [0, 1, 3] (by decide)).2 ⟨0, 3⟩ State.withHead 4 3 1
      (by decide) (acyclic_of_rank (by decide) id (by decide)) (by decide) rfl (by decide)
      Relation.ReflTransGen.refl rfl rfl rfl⟩

/-- C5: the tree scan calls `git_blame_file` exactly once for each blob entry
of the tree and for no other entry, in pre-order, with the prefix followed by
the entry name as path and the identifier of the reference commit as
`newest_commit`; `treeMetricsCallback` answers `0` in every case and so does
the walk; the calls made are the same whatever the blames answer.  On a tree
holding `a.txt` and `b.txt` with the blame of `a.txt` failing, both are
attempted. -/
theorem scan_blames_every_blob (r : Repo) (c : Commit) (root : String) (t : Tree) (s : State) :
    (∀ ty name s0, (treeMetricsCallback r c root ty name s0).2 = 0) ∧
    (treeWalk (treeMetricsCallback r c) root t s).2 = 0 ∧
    (∃ seg, (treeWalk (treeMetricsCallback r c) root t s).1.trace = s.trace ++ seg ∧
      blameAttempts seg = expectedBlames c.id root t ∧
      ∀ (r' : Repo), ∃ seg', (treeWalk (treeMetricsCallback r' c) root t s).1.trace =
        s.trace ++ seg' ∧ blameAttempts seg' = blameAttempts seg) ∧
    blameAttempts (scanCommit diamondRepo ⟨0, 3⟩ State.withHead).trace =
      [("a.txt", 3), ("b.txt", 3)] ∧
    Event.blameAttempt "a.txt" 3 false ∈ (scanCommit diamondRepo ⟨0, 3⟩ State.withHead).trace ∧
    Event.blameAttempt "b.txt" 3 true ∈ (scanCommit diamondRepo ⟨0, 3⟩ State.withHead).trace := by
  have key : ∀ r0 : Repo, ∃ seg, (treeWalk (treeMetricsCallback r0 c) root t s).1.trace =
      s.trace ++ seg ∧ blameAttempts seg = expectedBlames c.id root t := by
    intro r0
    obtain ⟨_, seg, hw⟩ := treeWalk_step r0 c t root s
    refine ⟨seg, hw.trace_eq, ?_⟩
    have h := treeWalk_blames r0 c t root s
    rw [hw.trace_eq, blameAttempts_append] at h
    exact List.append_cancel_left h
  refine ⟨fun ty name s0 => callback_rc r c root ty name s0, (treeWalk_step r c t root s).1,
    ?_, by decide, by decide, by decide⟩
  obtain ⟨seg, h1, h2⟩ := key r
  refine ⟨seg, h1, h2, ?_⟩
  intro r'
  obtain ⟨seg', h1', h2'⟩ := key r'
  exact ⟨seg', h1', h2'.trans h2.symm⟩

/-- C6: on a finite commit graph whose trees all resolve, the sequence of
commits scanned by a traversal from the head with an empty `knownCommits` is
the depth-first post-order from the head, parents in index order and visited
commits skipped; any other traversal of the same repository from the same
head with an empty `knownCommits` scans the same commits in the same order.
On the linear history `A`, `B`, `C` (here `0`, `1`, `2`) a traversal from `C`
scans `[A, B, C]`. -/
theorem scan_order_is_postorder (r : Repo) (U : List Oid) (hU : Closed r U)
    (hT : TreesResolve r U) (head : Commit) (hh : head.id ∈ U) (s : State)
    (hs : s.knownCommits = []) (fuel : Nat) (hf : U.length < fuel) :
    (∃ s' seg, processCommit r fuel head s = Res.done s' ∧ s'.trace = s.trace ++ seg ∧
      dfsPostOrder r.parents fuel head.id [] = some (s'.knownCommits, scans seg) ∧
      ∀ (head2 : Commit) (s2 : State) (fuel2 : Nat), head2.id = head.id →
        s2.knownCommits = [] → U.length < fuel2 →
        ∃ s2' seg2, processCommit r fuel2 head2 s2 = Res.done s2' ∧
          s2'.trace = s2.trace ++ seg2 ∧ scans seg2 = scans seg) ∧
    scans (processCommit linearRepo 4 ⟨0, 2⟩ State.withHead).state.trace = [0, 1, 2] := by
  have key : ∀ (hd : Commit) (t : State) (f : Nat), hd.id = head.id → t.knownCommits = [] →
      U.length < f → ∃ t' seg, processCommit r f hd t = Res.done t' ∧
        t'.trace = t.trace ++ seg ∧
        dfsPostOrder r.parents f head.id [] = some (t'.knownCommits, scans seg) := by
    intro hd t f hid ht hlt
    obtain ⟨t', hrun⟩ := processCommit_terminates r U hU f hd t (by rw [hid]; exact hh)
      (lt_of_le_of_lt (unvisitedCount_le_length U _) hlt)
    obtain ⟨seg, hcore, hd'⟩ := processCommit_dfs r U hU hT f hd t t' hrun
      (by rw [hid]; exact hh)
    rw [hid, ht] at hd'
    exact ⟨t', seg, hrun, hcore.trace_eq, hd'⟩
  refine ⟨?_, by decide⟩
  obtain ⟨s', seg, hrun, htr, hd⟩ := key head s fuel rfl hs hf
  refine ⟨s', seg, hrun, htr, hd, ?_⟩
  intro head2 s2 fuel2 hid hs2 hf2
  obtain ⟨s2', seg2, hrun2, htr2, hd2⟩ := key head2 s2 fuel2 hid hs2 hf2
  refine ⟨s2', seg2, hrun2, htr2, ?_⟩
  have e1 := dfsPostOrder_le r.parents (le_max_left fuel fuel2) _ _ _ hd
  have e2 := dfsPostOrder_le r.parents (le_max_right fuel fuel2) _ _ _ hd2
  rw [e1] at e2
  injection e2 with e2
  injection e2 with _ e2
  exact e2.symm

theorem scan_order_is_postorder_witness :
    Closed diamondRepo [0, 1, 2, 3] ∧ TreesResolve diamondRepo [0, 1, 2, 3] ∧
    ∃ s' seg, processCommit diamondRepo 5 ⟨0, 3⟩ State.withHead = Res.done s' ∧
      s'.trace = State.withHead.trace ++ seg ∧ scans seg = [0, 1, 2, 3] := by
  obtain ⟨⟨s', seg, hrun, htr, hd, _⟩, _⟩ :=
    scan_order_is_postorder diamondRepo [0, 1, 2, 3] (by decide) (by decide) ⟨0, 3⟩
      (by decide) State.withHead rfl 5 (by decide)
  refine ⟨by decide, by decide, s', seg, hrun, htr, ?_⟩
  have hval : dfsPostOrder diamondRepo.parents 5 3 [] = some ([2, 0, 1, 3], [0, 1, 2, 3]) := by
    decide
  have hd' : dfsPostOrder diamondRepo.parents 5 3 [] = some (s'.knownCommits, scans seg) := hd
  rw [hval] at hd'
  injection hd' with hd'
  injection hd' with _ hd'
  exact hd'.symm

/-- C7: on a finite graph, a call of `processCommit` on a commit `c` not yet
known whose tree fails to resolve finishes; every resolving parent of `c` is
known before `git_commit_tree` fails, which is the last event of the call;
the scan of `c` does not start; `processedCount` grows only by the scans of
the calls made for the parents; `c` stays in `knownCommits`.  And in a
traversal started with an empty `knownCommits`, with any failures, every
commit reachable from the head whose tree resolves is scanned exactly once,
and a commit whose tree fails never. -/
theorem tree_failure_skips_one_scan (r : Repo) (U : List Oid) (hU : Closed r U) :
    (∀ (c : Commit) (s : State) (fuel : Nat), c.id ∈ U → c.id ∉ s.knownCommits →
      r.tree c.id = none → unvisitedCount U s.knownCommits < fuel →
      ∃ s' pre, processCommit r fuel c s = Res.done s' ∧
        s'.trace = s.trace ++ (pre ++ [Event.use c.handle, Event.treeResolve c.id false]) ∧
        (∀ p, Parent r c.id p → p ∈ s.knownCommits ∨ Event.enter p ∈ pre) ∧
        Event.scanBegin c.id ∉ pre ∧
        s'.processedCount = s.processedCount + (scans pre).length ∧
        c.id ∈ s'.knownCommits) ∧
    (∀ (head : Commit) (s : State) (fuel : Nat), head.id ∈ U → s.knownCommits = [] →
      U.length < fuel →
      ∃ s' seg, processCommit r fuel head s = Res.done s' ∧ s'.trace = s.trace ++ seg ∧
        ∀ x, (Reach r head.id x → (r.tree x).isSome = true → (scans seg).count x = 1) ∧
             ((r.tree x).isSome = false → (scans seg).count x = 0)) := by
  constructor
  · intro c s fuel hc hk ht hf
    obtain ⟨s', hrun⟩ := processCommit_terminates r U hU fuel c s hc hf
    obtain ⟨n, hn⟩ := Nat.exists_eq_succ_of_ne_zero (Nat.not_eq_zero_of_lt hf)
    subst hn
    obtain ⟨s2, l, fin, hl, hfin, hs', hcore, hns⟩ := processCommit_frame r n c s s' hk hrun
    rcases hfin with ⟨_, hfin⟩ | ⟨t, w, ht', _, _⟩
    · subst hfin
      refine ⟨s', [Event.use c.handle] ++ [Event.enter c.id, Event.use c.handle] ++ l, hrun,
        hcore.trace_eq, ?_, ?_, ?_, ?_⟩
      · intro p ⟨i, hi, hp⟩
        have := hl.mem i (List.mem_range.mpr hi) p hp
        rw [hl.core.mem_known] at this
        rcases this with hp' | hp'
        · exact Or.inr (by simp [mem_enters.mp hp'])
        · simp only [State.insert, State.emit, List.mem_cons] at hp'
          rcases hp' with hp' | hp'
          · exact Or.inr (by simp [hp'])
          · exact Or.inl hp'
      · intro hmem
        simp only [List.mem_append, List.mem_cons, List.mem_singleton, List.not_mem_nil,
          or_false] at hmem
        rcases hmem with (hmem | hmem | hmem) | hmem
        · cases hmem
        · cases hmem
        · cases hmem
        · exact hns (mem_scans.mpr hmem)
      · rw [hcore.count_eq]; simp
      · rw [hcore.mem_known]; exact Or.inl (by simp)
    · rw [ht] at ht'; cases ht'
  · intro head s fuel hh hs hf
    obtain ⟨s', seg, hrun, hv⟩ := traversal_visit r U hU head hh s fuel
      (lt_of_le_of_lt (unvisitedCount_le_length U _) hf)
    refine ⟨s', seg, hrun, hv.core.trace_eq, ?_⟩
    intro x
    obtain ⟨h1, h0⟩ := hv.count_scans hs x
    exact ⟨h1, fun hn => h0 (fun h => by rw [hn] at h; exact absurd h.2 (by simp))⟩

theorem tree_failure_skips_one_scan_witness :
    Closed brokenTreeRepo [0, 1, 2] ∧
    (∃ s' pre, processCommit brokenTreeRepo 4 ⟨0, 1⟩ State.withHead = Res.done s' ∧
      s'.trace = State.withHead.trace ++
        (pre ++ [Event.use 0, Event.treeResolve 1 false]) ∧
      (∀ p, Parent brokenTreeRepo 1 p → p ∈ State.withHead.knownCommits ∨ Event.enter p ∈ pre) ∧
      Event.scanBegin 1 ∉ pre ∧
      s'.processedCount = State.withHead.processedCount + (scans pre).length ∧
      1 ∈ s'.knownCommits) ∧
    (∃ s' seg, processCommit brokenTreeRepo 4 ⟨0, 2⟩ State.withHead = Res.done s' ∧
      s'.trace = State.withHead.trace ++ seg ∧
      ∀ x, (Reach brokenTreeRepo 2 x → (brokenTreeRepo.tree x).isSome = true →
              (scans seg).count x = 1) ∧
           ((brokenTreeRepo.tree x).isSome = false → (scans seg).count x = 0)) :=
  ⟨by decide,
    (tree_failure_skips_one_scan brokenTreeRepo [0, 1, 2] (by decide)).1 ⟨0, 1⟩ State.withHead 4
      (by decide) (by decide) rfl (by decide),
    (tree_failure_skips_one_scan brokenTreeRepo [0, 1, 2] (by decide)).2 ⟨0, 2⟩ State.withHead 4
      (by decide) rfl (by decide)⟩

/-- C8: whenever `main` returns, the exit code is `1` exactly when the
argument count is not `2`, and otherwise `-1` exactly when the repository
cannot be opened or `HEAD` cannot be resolved.  It does return in these
cases; and with two arguments, a repository that opens and a head that
resolves, on a finite repository the traversal from the head runs to its
end, whatever fails inside it, and `main` returns `0`. -/
theorem main_exit_code (env : Env) (fuel : Nat) :
    (∀ code s, main fuel env = some (code, s) →
      (code = 1 ↔ env.argc ≠ 2) ∧
      (env.argc = 2 →
        (code = -1 ↔ (env.repo = none ∨ ∃ r, env.repo = some r ∧ getHead r = none))) ∧
      (env.argc = 2 → (∃ r h, env.repo = some r ∧ getHead r = some h) → code = 0)) ∧
    (env.argc ≠ 2 → ∃ s, main fuel env = some (1, s)) ∧
    (env.argc = 2 → (env.repo = none ∨ ∃ r, env.repo = some r ∧ getHead r = none) →
      ∃ s, main fuel env = some (-1, s)) ∧
    (env.argc = 2 → ∀ r h U, env.repo = some r → getHead r = some h → Closed r U → h ∈ U →
      U.length < fuel →
      ∃ s', processCommit r fuel ⟨0, h⟩ State.withHead = Res.done s' ∧
        main fuel env = some (0, s'.emit [Event.release 0])) := by
  refine ⟨?_, ?_, ?_, ?_⟩
  · intro code s hmain
    by_cases ha : env.argc = 2
    · cases hr : env.repo with
      | none =>
        simp only [main, ha, hr, ne_eq, not_true_eq_false, if_false, Option.some.injEq,
          Prod.mk.injEq] at hmain
        obtain ⟨hcode, _⟩ := hmain
        subst hcode
        refine ⟨by simp [ha], fun _ => by simp, ?_⟩
        intro _ ⟨r, h, hr', _⟩
        cases hr'
      | some r =>
        cases hh : getHead r with
        | none =>
          simp only [main, ha, hr, hh, ne_eq, not_true_eq_false, if_false, Option.some.injEq,
            Prod.mk.injEq] at hmain
          obtain ⟨hcode, _⟩ := hmain
          subst hcode
          refine ⟨by simp [ha], fun _ => by simp [hh], ?_⟩
          intro _ ⟨r', h, hr', hh'⟩
          cases hr'
          rw [hh] at hh'
          cases hh'
        | some h =>
          simp only [main, ha, hr, hh, ne_eq, not_true_eq_false, if_false] at hmain
          cases hrun : processCommit r fuel ⟨0, h⟩ State.withHead with
          | timeout s2 => rw [hrun] at hmain; cases hmain
          | done s2 =>
            rw [hrun] at hmain
            simp only [Option.some.injEq, Prod.mk.injEq] at hmain
            obtain ⟨hcode, _⟩ := hmain
            subst hcode
            exact ⟨by simp [ha], fun _ => by simp [hh], fun _ _ => rfl⟩
    · simp only [main, ha, ne_eq, not_false_eq_true, if_true, Option.some.injEq,
        Prod.mk.injEq] at hmain
      obtain ⟨hcode, _⟩ := hmain
      subst hcode
      exact ⟨by simp [ha], fun h => absurd h ha, fun h => absurd h ha⟩
  · intro ha
    exact ⟨State.init, by simp [main, ha]⟩
  · intro ha hfail
    rcases hfail with hr | ⟨r, hr, hh⟩
    · exact ⟨State.init, by simp [main, ha, hr]⟩
    · exact ⟨State.init, by simp [main, ha, hr, hh]⟩
  · intro ha r h U hr hh hU hhU hf
    obtain ⟨s', hrun⟩ := processCommit_terminates r U hU fuel ⟨0, h⟩ State.withHead hhU
      (lt_of_le_of_lt (unvisitedCount_le_length U _) hf)
    exact ⟨s', hrun, by simp [main, ha, hr, hh, hrun]⟩

theorem main_exit_code_witness :
    Closed brokenTreeRepo [0, 1, 2] ∧
    (∃ s', processCommit brokenTreeRepo 4 ⟨0, 2⟩ State.withHead = Res.done s' ∧
      main 4 ⟨2, some brokenTreeRepo⟩ = some (0, s'.emit [Event.release 0])) ∧
    (∃ s, main 4 ⟨3, some brokenTreeRepo⟩ = some (1, s)) ∧
    (∃ s, main 4 ⟨2, none⟩ = some (-1, s)) :=
  ⟨by decide,
    (main_exit_code ⟨2, some brokenTreeRepo⟩ 4).2.2.2 rfl brokenTreeRepo 2 [0, 1, 2] rfl rfl
      (by decide) (by decide) (by decide),
    (main_exit_code ⟨3, some brokenTreeRepo⟩ 4).2.1 (by decide),
    (main_exit_code ⟨2, none⟩ 4).2.2.1 rfl (Or.inl rfl)⟩

/-- C9: on a finite commit graph, cycles and self loops included, from any
start commit of the graph, any `knownCommits` and with any failures,
`processCommit` finishes within a recursion depth of one more than the
number of identifiers not yet known, and the number of calls that get past
the membership test is at most the number of distinct identifiers of the
graph that were not known at the start. -/
theorem traversal_terminates (r : Repo) (U : List Oid) (hU : Closed r U) (c : Commit)
    (hc : c.id ∈ U) (s : State) (fuel : Nat)
    (hf : unvisitedCount U s.knownCommits < fuel) :
    ∃ s' seg, processCommit r fuel c s = Res.done s' ∧ s'.trace = s.trace ++ seg ∧
      (enters seg).length ≤ unvisitedCount U s.knownCommits := by
  obtain ⟨s', seg, hrun, hv⟩ := traversal_visit r U hU c hc s fuel hf
  refine ⟨s', seg, hrun, hv.core.trace_eq, ?_⟩
  unfold unvisitedCount
  apply List.Subperm.length_le
  apply List.subperm_of_subset hv.core.nodup
  intro x hx
  simp only [List.mem_filter, List.mem_dedup, decide_eq_true_eq]
  exact ⟨reach_mem_closed hU hc (hv.sound x hx), hv.core.fresh x hx⟩

theorem traversal_terminates_witness :
    Closed cyclicRepo [0, 1] ∧ unvisitedCount [0, 1] State.withHead.knownCommits < 3 ∧
    ∃ s' seg, processCommit cyclicRepo 3 ⟨0, 0⟩ State.withHead = Res.done s' ∧
      s'.trace = State.withHead.trace ++ seg ∧
      (enters seg).length ≤ unvisitedCount [0, 1] State.withHead.knownCommits :=
  ⟨by decide, by decide,
    traversal_terminates cyclicRepo [0, 1] (by decide) ⟨0, 0⟩ (by decide) State.withHead 3
      (by decide)⟩

/-- C10: in a finished call of `processCommit`, on a finite graph with any
failures, the trace of the call keeps the handle discipline: every handle is
handed out at most once and released exactly as often as handed out, inside
the call; as many handles are handed out, and as many released, as parent,
tree and blame resolutions succeeded, so none for a failed resolution; no
handle is read after its release or released twice, and the handles the
callers hold are neither released nor changed.  A successful blame is
released right after its hunks are read, a failed one hands out nothing. -/
theorem handles_released_once (r : Repo) (U : List Oid) (hU : Closed r U) (c : Commit)
    (hc : c.id ∈ U) (s : State) (fuel : Nat) (hf : unvisitedCount U s.knownCommits < fuel)
    (live dead : List Nat) (hown : c.handle ∈ live) (hnd : live.Nodup)
    (hdis : ∀ h ∈ live, h ∉ dead) (hl : ∀ h ∈ live, h < s.nextHandle)
    (hd : ∀ h ∈ dead, h < s.nextHandle) :
    (∃ s' seg dead', processCommit r fuel c s = Res.done s' ∧ s'.trace = s.trace ++ seg ∧
      handleCheck seg (live, dead) = some (live, dead') ∧
      Balanced seg ∧
      (∀ h, seg.count (Event.release h) = seg.count (Event.acquire h) ∧
        seg.count (Event.acquire h) ≤ 1) ∧
      (∀ h pre post, seg = pre ++ Event.use h :: post →
        Event.release h ∉ pre ∧ (h ∈ live ∨ Event.acquire h ∈ pre)) ∧
      (∀ h pre post, seg = pre ++ Event.release h :: post →
        Event.acquire h ∈ pre ∧ Event.release h ∉ pre)) ∧
    (∀ (root name : String) (s0 : State) (n : Nat), r.blame c.id (root ++ name) = some n →
      (treeMetricsCallback r c root EntryType.blob name s0).1.trace = s0.trace ++
        ([Event.use c.handle, Event.blameAttempt (root ++ name) c.id true,
          Event.acquire s0.nextHandle, Event.use s0.nextHandle] ++
          List.replicate n (Event.use s0.nextHandle) ++ [Event.release s0.nextHandle])) ∧
    (∀ (root name : String) (s0 : State), r.blame c.id (root ++ name) = none →
      (treeMetricsCallback r c root EntryType.blob name s0).1.trace = s0.trace ++
        [Event.use c.handle, Event.blameAttempt (root ++ name) c.id false]) := by
  refine ⟨?_, ?_, ?_⟩
  · obtain ⟨s', hrun⟩ := processCommit_terminates r U hU fuel c s hc hf
    obtain ⟨seg, hcore, hsafe, hbal⟩ := processCommit_safe r fuel c s s' hrun
    obtain ⟨dead', hcheck, _⟩ := hsafe live dead hown hl hd
    obtain ⟨e1, e2, e3⟩ := handleCheck_explicit hcheck hnd hdis
    exact ⟨s', seg, dead', hrun, hcore.trace_eq, hcheck, hbal, e1, e2, e3⟩
  · intro root name s0 n hb
    rw [callback_ok r c root name s0 n hb]
    rfl
  · intro root name s0 hb
    rw [callback_fail r c root name s0 hb]
    rfl

theorem handles_released_once_witness :
    Closed diamondRepo [0, 1, 2, 3] ∧
    unvisitedCount [0, 1, 2, 3] State.withHead.knownCommits < 5 ∧
    ∃ s' seg dead', processCommit diamondRepo 5 ⟨0, 3⟩ State.withHead = Res.done s' ∧
      s'.trace = State.withHead.trace ++ seg ∧
      handleCheck seg ([0], []) = some ([0], dead') ∧ Balanced seg ∧
      (∀ h, seg.count (Event.release h) = seg.count (Event.acquire h) ∧
        seg.count (Event.acquire h) ≤ 1) :=
  ⟨by decide, by decide,
    match (handles_released_once diamondRepo [0, 1, 2, 3] (by decide) ⟨0, 3⟩ (by decide)
      State.withHead 5 (by decide) [0] [] (by decide) (by decide) (by decide) (by decide)
      (by decide)).1 with
    | ⟨s', seg, dead', h1, h2, h3, h4, h5, _⟩ => ⟨s', seg, dead', h1, h2, h3, h4, h5⟩⟩

end GitDblfree
